import Mathlib

/-!
Verification development for the mockup-storage engine.

This file gives a shallow embedding, in Lean 4, of the parts of the source
that the checked claims are about:

* the B-tree ordered map (`src/unnamed/part_013`, class `BTree`),
* the secondary index layer (`src/src/lib/index.ts`, classes `Index` and
  `IndexManager`),
* the schema helpers and record model (`src/src/lib/schema.ts`,
  `src/src/lib/record.ts`),
* the collection engine (`src/src/lib/collection.ts`, the schema-aware
  `MockCollection` backed by a B-tree),
* the storage manager's commit pull and auto-commit scheduler
  (`src/src/lib/storage.ts` and `src/unnamed/part_006`),
* the database-file loader (`src/unnamed/part_010`),
* the identifier generator (`src/unnamed/part_016`).

Conventions used throughout:

* JavaScript exceptions are modelled with `Except`/explicit error results;
  every `throw` site in the source is mapped to a tagged `JsError` value.
* In-place mutation is modelled by explicit state passing: an operation
  that mutates an object returns the new object.
* `Map` objects are modelled as insertion-ordered association lists,
  matching JS `Map` iteration order.
* JS `number` values appearing as record field contents are modelled as
  integers (`Int`); the claims under verification never depend on
  non-integral doubles.
* Randomness (the id generator) is modelled by passing the generated
  characters or the generated id in as an explicit argument.
-/

namespace MockupStorage

/-! ### Runtime field values

The source stores record fields as JS values of type
`string | number | boolean | Date | null` (plus absent/`undefined`,
modelled here by a missing association-list entry). -/

inductive Value where
  | str (s : String)
  | num (n : Int)
  | boolean (b : Bool)
  | datetime (ms : Int)
  | null
  deriving DecidableEq

/-- Numeric tag used to order values of different kinds.  The spec (§4.B)
declares mixed-kind comparison undefined; this embedding fixes an arbitrary
tag order for totality.  No claim exercises mixed-kind keys. -/
def Value.tag : Value → Nat
  | .str _ => 0
  | .num _ => 1
  | .boolean _ => 2
  | .datetime _ => 3
  | .null => 4

/-- The default comparator of the B-tree,
`(a, b) => (a < b ? -1 : a > b ? 1 : 0)`, specialised to field values. -/
def cmpValue (a b : Value) : Int :=
  match a, b with
  | .str x, .str y => if x < y then -1 else if y < x then 1 else 0
  | .num x, .num y => if x < y then -1 else if y < x then 1 else 0
  | .boolean x, .boolean y =>
      if x = false ∧ y = true then -1 else if x = true ∧ y = false then 1 else 0
  | .datetime x, .datetime y => if x < y then -1 else if y < x then 1 else 0
  | a, b =>
      if a.tag < b.tag then -1 else if b.tag < a.tag then 1 else 0

/-- The default comparator specialised to strings (used by the primary
id → record B-tree). -/
def cmpString (a b : String) : Int :=
  if a < b then -1 else if b < a then 1 else 0

/-! ### B-tree (`src/unnamed/part_013`)

`BTreeNode` carries its entry list, child list and leaf flag exactly as the
source class does.  The source maintains parent pointers; they are only
written, never read, by any operation, so the embedding omits them. -/

inductive BTreeNode (K V : Type) where
  | mk (entries : List (K × V)) (children : List (BTreeNode K V)) (isLeaf : Bool)

/-- Entry list of a node. -/
def BTreeNode.entriesList {K V : Type} : BTreeNode K V → List (K × V)
  | .mk es _ _ => es

/-- Child list of a node. -/
def BTreeNode.childrenList {K V : Type} : BTreeNode K V → List (BTreeNode K V)
  | .mk _ cs _ => cs

/-- Leaf flag of a node. -/
def BTreeNode.leafFlag {K V : Type} : BTreeNode K V → Bool
  | .mk _ _ b => b

theorem BTreeNode.sizeOf_pos {K V : Type} (n : BTreeNode K V) : 0 < sizeOf n := by
  cases n with
  | mk es cs b => simp

theorem List.sizeOf_take_le {α : Type} [SizeOf α] (l : List α) (n : Nat) :
    sizeOf (l.take n) ≤ sizeOf l := by
  induction l generalizing n with
  | nil => cases n <;> simp [List.take]
  | cons a t ih =>
    cases n with
    | zero => simp [List.take]; omega
    | succ m =>
      simp only [List.take]
      have := ih m
      simp only [List.cons.sizeOf_spec]
      omega

theorem List.sizeOf_drop_le {α : Type} [SizeOf α] (l : List α) (n : Nat) :
    sizeOf (l.drop n) ≤ sizeOf l := by
  induction l generalizing n with
  | nil => cases n <;> simp [List.drop]
  | cons a t ih =>
    cases n with
    | zero => simp [List.drop]
    | succ m =>
      simp only [List.drop]
      have := ih m
      simp only [List.cons.sizeOf_spec]
      have ha : 0 ≤ sizeOf a := Nat.zero_le _
      omega

/-- Left half produced by `splitChild`: the full child keeps its first
`mid` entries (`splice(mid+1)` followed by `pop`) and, when internal, its
first `mid + 1` children.  A leaf child's (empty) child list is untouched. -/
def splitLeft {K V : Type} (child : BTreeNode K V) (mid : Nat) : BTreeNode K V :=
  match child with
  | .mk es cs leaf => .mk (es.take mid) (if leaf then cs else cs.take (mid + 1)) leaf

/-- Right half produced by `splitChild`: the freshly allocated node receives
the entries after the middle one and, when internal, the children after
index `mid`. -/
def splitRight {K V : Type} (child : BTreeNode K V) (mid : Nat) : BTreeNode K V :=
  match child with
  | .mk es cs leaf => .mk (es.drop (mid + 1)) (if leaf then [] else cs.drop (mid + 1)) leaf

theorem sizeOf_splitLeft_le {K V : Type} (child : BTreeNode K V) (mid : Nat) :
    sizeOf (splitLeft child mid) ≤ sizeOf child := by
  cases child with
  | mk es cs leaf =>
    simp only [splitLeft, BTreeNode.mk.sizeOf_spec]
    have h1 := List.sizeOf_take_le es mid
    by_cases h : leaf = true
    · simp [h]; omega
    · simp [h]
      have h2 := List.sizeOf_take_le cs (mid + 1)
      omega

theorem sizeOf_splitRight_le {K V : Type} (child : BTreeNode K V) (mid : Nat) :
    sizeOf (splitRight child mid) ≤ sizeOf child := by
  cases child with
  | mk es cs leaf =>
    simp only [splitRight, BTreeNode.mk.sizeOf_spec]
    have h1 := List.sizeOf_drop_le es (mid + 1)
    by_cases h : leaf = true
    · simp [h]
      have : (1 : Nat) ≤ sizeOf cs := by cases cs <;> simp <;> omega
      omega
    · simp [h]
      have h2 := List.sizeOf_drop_le cs (mid + 1)
      omega

/-- Entry insertion into a leaf's entry list.  The source pushes a
placeholder, shifts every trailing entry whose key is greater than `k` one
slot to the right, and writes `(k, v)` into the gap; on any list this is
equivalent to splitting off the maximal suffix of entries with `k < key`. -/
def leafInsertEntry {K V : Type} (cmp : K → K → Int) (k : K) (v : V)
    (es : List (K × V)) : List (K × V) :=
  (es.reverse.dropWhile (fun e => cmp k e.1 < 0)).reverse ++
    (k, v) :: (es.reverse.takeWhile (fun e => cmp k e.1 < 0)).reverse

/-- Child index chosen by the descent loop of `insertNonFull`: starting at
the last entry, step left while `k < key`, then step one to the right. -/
def childIndexFor {K V : Type} (cmp : K → K → Int) (k : K)
    (es : List (K × V)) : Nat :=
  es.length - (es.reverse.takeWhile (fun e => cmp k e.1 < 0)).length

/-- `insertNonFull` of the source.  The source splits the full child inside
the parent's child array and then recurses into `children[i]`; here the
chosen half is computed first, recursed into, and the parent is reassembled,
which yields the same resulting node.  The `none`/`[]` fallbacks correspond
to out-of-bounds array accesses that cannot occur on well-formed trees. -/
def insertNonFull {K V : Type} (cmp : K → K → Int) (order : Nat) (k : K) (v : V) :
    BTreeNode K V → BTreeNode K V
  | .mk es cs true => .mk (leafInsertEntry cmp k v es) cs true
  | .mk es cs false =>
    match hc : cs.get? (childIndexFor cmp k es) with
    | none => .mk es cs false
    | some child =>
      if child.entriesList.length = order - 1 then
        match hd : child.entriesList.drop ((order - 1) / 2) with
        | [] => .mk es cs false
        | midE :: _ =>
          let i := childIndexFor cmp k es
          let left := splitLeft child ((order - 1) / 2)
          let right := splitRight child ((order - 1) / 2)
          let tgt' := insertNonFull cmp order k v (if 0 < cmp k midE.1 then right else left)
          let i' := if 0 < cmp k midE.1 then i + 1 else i
          .mk (es.insertIdx i midE) ((((cs.set i left).insertIdx (i + 1) right).set i' tgt')) false
      else
        .mk es (cs.set (childIndexFor cmp k es) (insertNonFull cmp order k v child)) false
termination_by n => sizeOf n
decreasing_by
  · have hmem : child ∈ cs := List.get?_mem hc
    have hlt : sizeOf child < sizeOf cs := List.sizeOf_lt_of_mem hmem
    have hL := sizeOf_splitLeft_le child ((order - 1) / 2)
    have hR := sizeOf_splitRight_le child ((order - 1) / 2)
    simp only [BTreeNode.mk.sizeOf_spec]
    by_cases h : 0 < cmp k midE.1 <;> simp [h] <;> omega
  · have hmem : child ∈ cs := List.get?_mem hc
    have hlt : sizeOf child < sizeOf cs := List.sizeOf_lt_of_mem hmem
    simp only [BTreeNode.mk.sizeOf_spec]
    omega

/-- The B-tree object.  The source stores the comparator in the instance;
`size` is the entry counter maintained by `insert`/`delete`. -/
structure BTree (K V : Type) where
  root : BTreeNode K V
  order : Nat
  cmp : K → K → Int
  size : Nat

/-- Constructor: `order = Math.max(3, order)`, an empty leaf root. -/
def BTree.new {K V : Type} (order : Nat) (cmp : K → K → Int) : BTree K V :=
  { root := .mk [] [] true, order := max 3 order, cmp := cmp, size := 0 }

/-- Number of entries (`length()` of the source). -/
def BTree.length {K V : Type} (t : BTree K V) : Nat := t.size

/-- `insert` of the source: split a full root, then `insertNonFull`; the
size counter is incremented unconditionally (duplicate keys included). -/
def BTree.insert {K V : Type} (t : BTree K V) (k : K) (v : V) : BTree K V :=
  if t.root.entriesList.length = t.order - 1 then
    match hd : t.root.entriesList.drop ((t.order - 1) / 2) with
    | [] =>
      { t with root := insertNonFull t.cmp t.order k v t.root, size := t.size + 1 }
    | midE :: _ =>
      let newRoot : BTreeNode K V :=
        .mk [midE] [splitLeft t.root ((t.order - 1) / 2), splitRight t.root ((t.order - 1) / 2)] false
      { t with root := insertNonFull t.cmp t.order k v newRoot, size := t.size + 1 }
  else
    { t with root := insertNonFull t.cmp t.order k v t.root, size := t.size + 1 }

/-- Scan position of the entry loops: number of leading entries whose key
is strictly below the probe (`while cmp(key, entries[i].key) > 0 i++`). -/
def scanIdx {K V : Type} (cmp : K → K → Int) (k : K) (es : List (K × V)) : Nat :=
  (es.takeWhile (fun e => 0 < cmp k e.1)).length

/-- `searchNode` of the source. -/
def searchNode {K V : Type} (cmp : K → K → Int) (k : K) :
    BTreeNode K V → Option V
  | .mk es cs leaf =>
    match es.get? (scanIdx cmp k es) with
    | some e =>
      if cmp k e.1 = 0 then some e.2
      else if leaf then none
      else
        match hc : cs.get? (scanIdx cmp k es) with
        | some c => searchNode cmp k c
        | none => none
    | none =>
      if leaf then none
      else
        match hc : cs.get? (scanIdx cmp k es) with
        | some c => searchNode cmp k c
        | none => none
termination_by n => sizeOf n
decreasing_by
  all_goals
    have hlt := List.sizeOf_lt_of_mem (List.get?_mem hc)
    simp only [BTreeNode.mk.sizeOf_spec]
    omega

/-- `search` of the source. -/
def BTree.search {K V : Type} (t : BTree K V) (k : K) : Option V :=
  searchNode t.cmp k t.root

/-- Entry/child walk of `traverse`: visit child `i`, emit entry `i`,
continue with `i + 1`; after the last entry visit the final child. -/
def travGo {K V : Type} : BTreeNode K V → Nat → List (K × V)
  | .mk es cs leaf, i =>
    match he : es.get? i with
    | some e =>
      (if leaf then []
       else match hc : cs.get? i with
            | some c => travGo c 0
            | none => []) ++ e :: travGo (.mk es cs leaf) (i + 1)
    | none =>
      if leaf then []
      else match hc : cs.get? i with
           | some c => travGo c 0
           | none => []
termination_by n i => (sizeOf n, n.entriesList.length + 1 - i)
decreasing_by
  · apply Prod.Lex.left
    have hlt := List.sizeOf_lt_of_mem (List.get?_mem hc)
    simp only [BTreeNode.mk.sizeOf_spec]
    omega
  · apply Prod.Lex.right
    have hi : i < es.length := by
      by_contra hcon
      have hnone : es.get? i = none := List.get?_eq_none.mpr (Nat.le_of_not_lt hcon)
      rw [hnone] at he
      cases he
    simp only [BTreeNode.entriesList]
    omega
  · apply Prod.Lex.left
    have hlt := List.sizeOf_lt_of_mem (List.get?_mem hc)
    simp only [BTreeNode.mk.sizeOf_spec]
    omega

/-- `toArray` of the source: in-order traversal from the root. -/
def BTree.toArray {K V : Type} (t : BTree K V) : List (K × V) :=
  travGo t.root 0

/-- `clear` of the source. -/
def BTree.clear {K V : Type} (t : BTree K V) : BTree K V :=
  { t with root := .mk [] [] true, size := 0 }

/-- Scan position of `rangeSearch`: number of leading entries whose key the
lower bound strictly exceeds (`while cmp(min, entries[i].key) > 0 i++`). -/
def rangeStartIdx {K V : Type} (cmp : K → K → Int) (lo : K)
    (n : BTreeNode K V) : Nat :=
  scanIdx cmp lo n.entriesList

/-- Collection loop of `rangeSearch`.  At each position the child is visited
first, then the entry is emitted if its key does not exceed `hi`, otherwise
the loop breaks; after the loop (by exhaustion or by break) the child at the
current position is visited once more if it exists.  On a break this visits
`children[i]` a second time - that duplication is present in the source. -/
def rangeGo {K V : Type} (cmp : K → K → Int) (lo hi : K) :
    BTreeNode K V → Nat → List (K × V)
  | .mk es cs leaf, i =>
    match he : es.get? i with
    | some e =>
      (if leaf then []
       else match hc : cs.get? i with
            | some c => rangeGo cmp lo hi c (rangeStartIdx cmp lo c)
            | none => []) ++
      (if cmp e.1 hi ≤ 0 then e :: rangeGo cmp lo hi (.mk es cs leaf) (i + 1)
       else
        if leaf then []
        else match hc : cs.get? i with
             | some c => rangeGo cmp lo hi c (rangeStartIdx cmp lo c)
             | none => [])
    | none =>
      if leaf then []
      else match hc : cs.get? i with
           | some c => rangeGo cmp lo hi c (rangeStartIdx cmp lo c)
           | none => []
termination_by n i => (sizeOf n, n.entriesList.length + 1 - i)
decreasing_by
  · apply Prod.Lex.left
    have hlt := List.sizeOf_lt_of_mem (List.get?_mem hc)
    simp only [BTreeNode.mk.sizeOf_spec]
    omega
  · apply Prod.Lex.right
    have hi : i < es.length := by
      by_contra hcon
      have hnone : es.get? i = none := List.get?_eq_none.mpr (Nat.le_of_not_lt hcon)
      rw [hnone] at he
      cases he
    simp only [BTreeNode.entriesList]
    omega
  · apply Prod.Lex.left
    have hlt := List.sizeOf_lt_of_mem (List.get?_mem hc)
    simp only [BTreeNode.mk.sizeOf_spec]
    omega
  · apply Prod.Lex.left
    have hlt := List.sizeOf_lt_of_mem (List.get?_mem hc)
    simp only [BTreeNode.mk.sizeOf_spec]
    omega

/-- `range(min, max)` of the source (both bounds inclusive). -/
def BTree.range {K V : Type} (t : BTree K V) (lo hi : K) : List (K × V) :=
  rangeGo t.cmp lo hi t.root (rangeStartIdx t.cmp lo t.root)

/-! #### Deletion

The deletion family (`deleteKey`, `deleteFromInternal`, `fillChild`, the
borrow and merge helpers) is translated with an explicit fuel argument in
place of the source's unbounded recursion; callers pass `sizeOf root`,
which strictly exceeds the recursion depth of every actual run, so the
fuel-exhaustion branch (which reports "not deleted") is never taken on a
real tree.  `Option`-fallbacks again correspond to out-of-bounds accesses
impossible on well-formed trees. -/

/-- Minimum entry count `ceil(order / 2) - 1` used by the deletion code. -/
def minEntriesOf (order : Nat) : Nat := (order + 1) / 2 - 1

/-- `getPredecessor`: descend to the rightmost entry below a child. -/
def lastEntryDescend {K V : Type} : BTreeNode K V → Option (K × V)
  | .mk es _ true => es.getLast?
  | .mk _ cs false =>
    match hc : cs.getLast? with
    | some c => lastEntryDescend c
    | none => none
termination_by n => sizeOf n
decreasing_by
  have hlt := List.sizeOf_lt_of_mem (List.mem_of_mem_getLast? hc)
  simp only [BTreeNode.mk.sizeOf_spec]
  omega

/-- `getSuccessor`: descend to the leftmost entry below a child. -/
def firstEntryDescend {K V : Type} : BTreeNode K V → Option (K × V)
  | .mk es _ true => es.head?
  | .mk _ cs false =>
    match hc : cs.head? with
    | some c => firstEntryDescend c
    | none => none
termination_by n => sizeOf n
decreasing_by
  have hlt := List.sizeOf_lt_of_mem (List.mem_of_mem_head? hc)
  simp only [BTreeNode.mk.sizeOf_spec]
  omega

/-- `borrowFromPrev`: move the separating parent entry down into the child
and the left sibling's last entry (and, when internal, last child) up. -/
def borrowFromPrev {K V : Type} (node : BTreeNode K V) (ci : Nat) : BTreeNode K V :=
  match node with
  | .mk es cs leaf =>
    match cs.get? ci, cs.get? (ci - 1), es.get? (ci - 1) with
    | some child, some sib, some pe =>
      match sib.entriesList.getLast? with
      | some se =>
        let child' : BTreeNode K V :=
          if child.leafFlag then
            .mk (pe :: child.entriesList) child.childrenList child.leafFlag
          else
            match sib.childrenList.getLast? with
            | some sc => .mk (pe :: child.entriesList) (sc :: child.childrenList) child.leafFlag
            | none => .mk (pe :: child.entriesList) child.childrenList child.leafFlag
        let sib' : BTreeNode K V :=
          .mk sib.entriesList.dropLast
            (if child.leafFlag then sib.childrenList else sib.childrenList.dropLast)
            sib.leafFlag
        .mk (es.set (ci - 1) se) ((cs.set ci child').set (ci - 1) sib') leaf
      | none => node
    | _, _, _ => node

/-- `borrowFromNext`: symmetric borrow from the right sibling. -/
def borrowFromNext {K V : Type} (node : BTreeNode K V) (ci : Nat) : BTreeNode K V :=
  match node with
  | .mk es cs leaf =>
    match cs.get? ci, cs.get? (ci + 1), es.get? ci with
    | some child, some sib, some pe =>
      match sib.entriesList.head? with
      | some se =>
        let child' : BTreeNode K V :=
          if child.leafFlag then
            .mk (child.entriesList ++ [pe]) child.childrenList child.leafFlag
          else
            match sib.childrenList.head? with
            | some sc =>
              .mk (child.entriesList ++ [pe]) (child.childrenList ++ [sc]) child.leafFlag
            | none => .mk (child.entriesList ++ [pe]) child.childrenList child.leafFlag
        let sib' : BTreeNode K V :=
          .mk sib.entriesList.tail
            (if child.leafFlag then sib.childrenList else sib.childrenList.tail)
            sib.leafFlag
        .mk (es.set ci se) ((cs.set ci child').set (ci + 1) sib') leaf
      | none => node
    | _, _, _ => node

/-- `mergeChildren`: fold the separating entry and the right sibling into
the left child and drop both from the parent. -/
def mergeChildren {K V : Type} (node : BTreeNode K V) (idx : Nat) : BTreeNode K V :=
  match node with
  | .mk es cs leaf =>
    match cs.get? idx, cs.get? (idx + 1), es.get? idx with
    | some left, some right, some pe =>
      let left' : BTreeNode K V :=
        .mk (left.entriesList ++ pe :: right.entriesList)
          (if left.leafFlag then left.childrenList
           else left.childrenList ++ right.childrenList)
          left.leafFlag
      .mk (es.eraseIdx idx) ((cs.set idx left').eraseIdx (idx + 1)) leaf
    | _, _, _ => node

/-- `fillChild`: borrow from a sibling when possible, otherwise merge. -/
def fillChild {K V : Type} (order : Nat) (node : BTreeNode K V) (i : Nat) :
    BTreeNode K V :=
  let cs := node.childrenList
  let bigAt : Nat → Bool := fun j =>
    match cs.get? j with
    | some s => decide (minEntriesOf order < s.entriesList.length)
    | none => false
  if 0 < i ∧ bigAt (i - 1) = true then borrowFromPrev node i
  else if i < cs.length - 1 ∧ bigAt (i + 1) = true then borrowFromNext node i
  else if i < cs.length - 1 then mergeChildren node i
  else mergeChildren node (i - 1)

mutual

/-- `deleteKey` of the source, fuelled.  Returns the "deleted" flag and the
resulting node (the source mutates in place, so rebalancing performed
before a failed lookup persists). -/
def deleteKeyGo {K V : Type} (cmp : K → K → Int) (order : Nat) :
    Nat → BTreeNode K V → K → (Bool × BTreeNode K V)
  | 0, node, _ => (false, node)
  | fuel + 1, .mk es cs leaf, k =>
    let i := scanIdx cmp k es
    match es.get? i with
    | some e =>
      if cmp k e.1 = 0 then
        if leaf then (true, .mk (es.eraseIdx i) cs leaf)
        else deleteInternalGo cmp order fuel (.mk es cs leaf) i k
      else
        deleteDescendGo cmp order fuel (.mk es cs leaf) i k
    | none =>
      deleteDescendGo cmp order fuel (.mk es cs leaf) i k

/-- Shared tail of `deleteKey`: when the key was not found in this node,
fill an underfull child and recurse (or fail on a leaf). -/
def deleteDescendGo {K V : Type} (cmp : K → K → Int) (order : Nat)
    (fuel : Nat) (node : BTreeNode K V) (i : Nat) (k : K) :
    (Bool × BTreeNode K V) :=
  if node.leafFlag then (false, node)
  else
    let node1 :=
      match node.childrenList.get? i with
      | some c =>
        if c.entriesList.length ≤ minEntriesOf order then fillChild order node i
        else node
      | none => node
    let j := if node1.entriesList.length < i then i - 1 else i
    match node1.childrenList.get? j with
    | some c =>
      let r := deleteKeyGo cmp order fuel c k
      (r.1, .mk node1.entriesList (node1.childrenList.set j r.2) node1.leafFlag)
    | none => (false, node1)

/-- `deleteFromInternal` of the source, fuelled. -/
def deleteInternalGo {K V : Type} (cmp : K → K → Int) (order : Nat)
    (fuel : Nat) (node : BTreeNode K V) (index : Nat) (k : K) :
    (Bool × BTreeNode K V) :=
  match node with
  | .mk es cs leaf =>
    let minE := minEntriesOf order
    match cs.get? index, cs.get? (index + 1) with
    | some cl, some cr =>
      if minE < cl.entriesList.length then
        match lastEntryDescend cl with
        | some pred =>
          let r := deleteKeyGo cmp order fuel cl pred.1
          (r.1, .mk (es.set index pred) (cs.set index r.2) leaf)
        | none => (false, .mk es cs leaf)
      else if minE < cr.entriesList.length then
        match firstEntryDescend cr with
        | some succ =>
          let r := deleteKeyGo cmp order fuel cr succ.1
          (r.1, .mk (es.set index succ) (cs.set (index + 1) r.2) leaf)
        | none => (false, .mk es cs leaf)
      else
        let merged := mergeChildren (.mk es cs leaf) index
        match merged.childrenList.get? index with
        | some c =>
          let r := deleteKeyGo cmp order fuel c k
          (r.1, .mk merged.entriesList (merged.childrenList.set index r.2) merged.leafFlag)
        | none => (false, merged)
    | _, _ => (false, .mk es cs leaf)

end

/-- Structural node count, used as the fuel bound for deletion; it strictly
exceeds the height of the tree. -/
def nodeSize {K V : Type} : BTreeNode K V → Nat
  | .mk es cs _ => 1 + es.length + (cs.attach.map (fun c => nodeSize c.1)).sum
termination_by n => sizeOf n
decreasing_by
  have hlt := List.sizeOf_lt_of_mem c.2
  simp only [BTreeNode.mk.sizeOf_spec]
  omega

/-- `delete` of the source: run `deleteKey` on the root (with ample fuel),
decrement the size and collapse an emptied internal root. -/
def BTree.delete {K V : Type} (t : BTree K V) (k : K) : (Bool × BTree K V) :=
  let r := deleteKeyGo t.cmp t.order (nodeSize t.root) t.root k
  if r.1 then
    let root2 :=
      if r.2.entriesList.length = 0 ∧ r.2.leafFlag = false then
        match r.2.childrenList.get? 0 with
        | some c => c
        | none => r.2
      else r.2
    (true, { t with root := root2, size := t.size - 1 })
  else (false, { t with root := r.2 })

/-! ### Well-formedness and multiset content

`WFNode` captures the structural shape every tree reachable through the
source API has: a leaf holds no children and an internal node holds exactly
one more child than entries.  `nodeM` is the multiset of key-value pairs
stored in a subtree; the lemmas below show that `toArray` enumerates it and
that `insert` adds exactly the given pair to it (duplicates included). -/

inductive WFNode {K V : Type} : BTreeNode K V → Prop where
  | leaf (es : List (K × V)) : WFNode (.mk es [] true)
  | internal (es : List (K × V)) (cs : List (BTreeNode K V))
      (hlen : cs.length = es.length + 1)
      (hcs : ∀ c ∈ cs, WFNode c) : WFNode (.mk es cs false)

/-- Multiset of entries stored in a subtree. -/
def nodeM {K V : Type} : BTreeNode K V → Multiset (K × V)
  | .mk es _ true => ↑es
  | .mk es cs false => ↑es + (cs.attach.map (fun c => nodeM c.1)).sum
termination_by n => sizeOf n
decreasing_by
  have hlt := List.sizeOf_lt_of_mem c.2
  simp only [BTreeNode.mk.sizeOf_spec]
  omega

theorem nodeM_leaf {K V : Type} (es : List (K × V)) (cs : List (BTreeNode K V)) :
    nodeM (.mk es cs true) = ↑es := by
  simp [nodeM]

theorem nodeM_internal {K V : Type} (es : List (K × V)) (cs : List (BTreeNode K V)) :
    nodeM (.mk es cs false) = ↑es + (cs.map nodeM).sum := by
  rw [nodeM]
  rw [List.attach_map_val cs nodeM]

theorem childIndexFor_le {K V : Type} (cmp : K → K → Int) (k : K)
    (es : List (K × V)) : childIndexFor cmp k es ≤ es.length :=
  Nat.sub_le _ _

theorem rev_take_drop_coe {α : Type} (l : List α) (p : α → Bool) (x : α) :
    (↑((l.reverse.dropWhile p).reverse ++ x :: (l.reverse.takeWhile p).reverse) :
        Multiset α) = x ::ₘ ↑l := by
  have hsplit : l.reverse.takeWhile p ++ l.reverse.dropWhile p = l.reverse :=
    List.takeWhile_append_dropWhile _ _
  calc (↑((l.reverse.dropWhile p).reverse ++ x :: (l.reverse.takeWhile p).reverse) :
        Multiset α)
      = ↑(l.reverse.dropWhile p).reverse + (x ::ₘ ↑(l.reverse.takeWhile p).reverse) := rfl
    _ = ↑(l.reverse.dropWhile p) + (x ::ₘ ↑(l.reverse.takeWhile p)) := by
        rw [Multiset.coe_reverse, Multiset.coe_reverse]
    _ = x ::ₘ (↑(l.reverse.takeWhile p) + ↑(l.reverse.dropWhile p)) := by
        simp only [← Multiset.singleton_add]
        abel
    _ = x ::ₘ ↑(l.reverse.takeWhile p ++ l.reverse.dropWhile p) := rfl
    _ = x ::ₘ ↑l.reverse := by rw [hsplit]
    _ = x ::ₘ ↑l := by rw [Multiset.coe_reverse]

theorem leafInsertEntry_coe {K V : Type} (cmp : K → K → Int) (k : K) (v : V)
    (es : List (K × V)) :
    (↑(leafInsertEntry cmp k v es) : Multiset (K × V)) = (k, v) ::ₘ ↑es :=
  rev_take_drop_coe es (fun e => cmp k e.1 < 0) (k, v)

theorem insertIdx_coe {α : Type} (l : List α) (x : α) (n : Nat) (h : n ≤ l.length) :
    (↑(l.insertIdx n x) : Multiset α) = x ::ₘ ↑l :=
  Multiset.coe_eq_coe.mpr (List.perm_insertNth x l h)

theorem mapSum_insertIdx {α β : Type} [AddCommMonoid β] (l : List α) (x : α)
    (n : Nat) (f : α → β) (h : n ≤ l.length) :
    ((l.insertIdx n x).map f).sum = f x + (l.map f).sum :=
  List.Perm.sum_eq (List.Perm.map f (List.perm_insertNth x l h))

theorem mapSum_set {α β : Type} [AddCommMonoid β] (l : List α) (x y : α)
    (i : Nat) (f : α → β) (h : l.get? i = some y) :
    ((l.set i x).map f).sum + f y = (l.map f).sum + f x := by
  induction l generalizing i with
  | nil => cases h
  | cons a t ih =>
    cases i with
    | zero =>
      injection h with h1
      subst h1
      simp only [List.set, List.map, List.sum_cons]
      abel
    | succ j =>
      have hrec := ih j h
      simp only [List.set, List.map, List.sum_cons]
      calc f a + ((t.set j x).map f).sum + f y
          = f a + (((t.set j x).map f).sum + f y) := by rw [add_assoc]
        _ = f a + ((t.map f).sum + f x) := by rw [hrec]
        _ = f a + (t.map f).sum + f x := by rw [add_assoc]

theorem get?_insertIdx_self {α : Type} (l : List α) (x : α) (n : Nat)
    (h : n ≤ l.length) : (l.insertIdx n x).get? n = some x := by
  induction l generalizing n with
  | nil =>
    cases n with
    | zero => rfl
    | succ m => simp at h
  | cons a t ih =>
    cases n with
    | zero => rfl
    | succ m =>
      simp only [List.insertIdx_succ_cons]
      exact ih m (by simpa using h)

theorem get?_insertIdx_of_lt {α : Type} (l : List α) (x : α) (n i : Nat)
    (h : i < n) : (l.insertIdx n x).get? i = l.get? i := by
  induction l generalizing n i with
  | nil =>
    cases n with
    | zero => omega
    | succ m => simp [List.insertIdx_succ_nil]
  | cons a t ih =>
    cases n with
    | zero => omega
    | succ m =>
      cases i with
      | zero => rfl
      | succ j =>
        simp only [List.insertIdx_succ_cons]
        exact ih m j (by omega)

theorem entries_decomp {K V : Type} (es : List (K × V)) (mid : Nat)
    (midE : K × V) (hmid : mid < es.length) (hmidE : es.get? mid = some midE) :
    (↑es : Multiset (K × V)) = ↑(es.take mid) + (midE ::ₘ ↑(es.drop (mid + 1))) := by
  have h2 : es.get ⟨mid, hmid⟩ = midE := by
    have hg := List.get?_eq_get (l := es) (n := mid) hmid
    rw [hg] at hmidE
    exact Option.some.inj hmidE
  have h1 := List.drop_eq_get_cons (l := es) (n := mid) hmid
  rw [h2] at h1
  have hdec : es = es.take mid ++ midE :: es.drop (mid + 1) := by
    conv_lhs => rw [← List.take_append_drop mid es]
    rw [h1]
  conv_lhs => rw [hdec]
  rfl

theorem nodeM_split {K V : Type} (child : BTreeNode K V) (mid : Nat)
    (hWF : WFNode child) (hmid : mid < child.entriesList.length)
    (midE : K × V) (hmidE : child.entriesList.get? mid = some midE) :
    nodeM (splitLeft child mid) + (midE ::ₘ nodeM (splitRight child mid)) =
      nodeM child := by
  cases hWF with
  | leaf es =>
    simp only [BTreeNode.entriesList] at hmid hmidE
    have hdec := entries_decomp es mid midE hmid hmidE
    have e1 : splitLeft (BTreeNode.mk es ([] : List (BTreeNode K V)) true) mid =
        .mk (es.take mid) [] true := rfl
    have e2 : splitRight (BTreeNode.mk es ([] : List (BTreeNode K V)) true) mid =
        .mk (es.drop (mid + 1)) [] true := rfl
    rw [e1, e2, nodeM_leaf, nodeM_leaf, nodeM_leaf]
    exact hdec.symm
  | internal es cs hlen hcs =>
    simp only [BTreeNode.entriesList] at hmid hmidE
    have hdec := entries_decomp es mid midE hmid hmidE
    have e1 : splitLeft (BTreeNode.mk es cs false) mid =
        .mk (es.take mid) (cs.take (mid + 1)) false := rfl
    have e2 : splitRight (BTreeNode.mk es cs false) mid =
        .mk (es.drop (mid + 1)) (cs.drop (mid + 1)) false := rfl
    rw [e1, e2, nodeM_internal, nodeM_internal, nodeM_internal, hdec]
    have hcsdec : (cs.map nodeM).sum =
        ((cs.take (mid + 1)).map nodeM).sum + ((cs.drop (mid + 1)).map nodeM).sum := by
      conv_lhs => rw [← List.take_append_drop (mid + 1) cs]
      rw [List.map_append, List.sum_append]
    rw [hcsdec]
    have hs : ∀ (a b c d : Multiset (K × V)),
        (a + b) + (midE ::ₘ (c + d)) = (a + (midE ::ₘ c)) + (b + d) := by
      intro a b c d
      simp only [← Multiset.singleton_add]
      abel
    exact hs _ _ _ _

theorem get?_of_drop_cons {α : Type} {l : List α} {n : Nat} {x : α} {xs : List α}
    (h : l.drop n = x :: xs) : l.get? n = some x := by
  have h2 := List.head?_drop l n
  rw [h] at h2
  simp only [List.head?] at h2
  rw [List.get?_eq_getElem?]
  exact h2.symm

theorem lt_of_drop_cons {α : Type} {l : List α} {n : Nat} {x : α} {xs : List α}
    (h : l.drop n = x :: xs) : n < l.length := by
  by_contra hcon
  rw [List.drop_eq_nil_iff.mpr (by omega)] at h
  cases h

theorem WF_splitLeft {K V : Type} (child : BTreeNode K V) (mid : Nat)
    (hWF : WFNode child) (hmid : mid < child.entriesList.length) :
    WFNode (splitLeft child mid) := by
  cases hWF with
  | leaf es => exact WFNode.leaf _
  | internal es cs hlen hcs =>
    have e1 : splitLeft (BTreeNode.mk es cs false) mid =
        .mk (es.take mid) (cs.take (mid + 1)) false := rfl
    rw [e1]
    simp only [BTreeNode.entriesList] at hmid
    refine WFNode.internal _ _ ?_ ?_
    · simp only [List.length_take]
      omega
    · intro c hc
      exact hcs c (List.take_subset _ _ hc)

theorem WF_splitRight {K V : Type} (child : BTreeNode K V) (mid : Nat)
    (hWF : WFNode child) (hmid : mid < child.entriesList.length) :
    WFNode (splitRight child mid) := by
  cases hWF with
  | leaf es => exact WFNode.leaf _
  | internal es cs hlen hcs =>
    have e1 : splitRight (BTreeNode.mk es cs false) mid =
        .mk (es.drop (mid + 1)) (cs.drop (mid + 1)) false := rfl
    rw [e1]
    simp only [BTreeNode.entriesList] at hmid
    refine WFNode.internal _ _ ?_ ?_
    · simp only [List.length_drop]
      omega
    · intro c hc
      exact hcs c (List.drop_subset _ _ hc)

theorem insertNonFull_leaf {K V : Type} (cmp : K → K → Int) (order : Nat)
    (k : K) (v : V) (es : List (K × V)) (cs : List (BTreeNode K V)) :
    insertNonFull cmp order k v (.mk es cs true) =
      .mk (leafInsertEntry cmp k v es) cs true := by
  simp only [insertNonFull]

theorem insertNonFull_none {K V : Type} (cmp : K → K → Int) (order : Nat)
    (k : K) (v : V) (es : List (K × V)) (cs : List (BTreeNode K V))
    (hc : cs.get? (childIndexFor cmp k es) = none) :
    insertNonFull cmp order k v (.mk es cs false) = .mk es cs false := by
  simp only [insertNonFull]
  split
  · rfl
  · rename_i child hc2
    rw [hc] at hc2
    cases hc2

theorem insertNonFull_stuck {K V : Type} (cmp : K → K → Int) (order : Nat)
    (k : K) (v : V) (es : List (K × V)) (cs : List (BTreeNode K V))
    (child : BTreeNode K V)
    (hc : cs.get? (childIndexFor cmp k es) = some child)
    (hfull : child.entriesList.length = order - 1)
    (hd : child.entriesList.drop ((order - 1) / 2) = []) :
    insertNonFull cmp order k v (.mk es cs false) = .mk es cs false := by
  simp only [insertNonFull]
  split
  · rfl
  · rename_i child2 hc2
    rw [hc] at hc2
    cases hc2
    rw [if_pos hfull]
    split
    · rfl
    · rename_i midE tail hd2
      rw [hd] at hd2
      cases hd2

theorem insertNonFull_split {K V : Type} (cmp : K → K → Int) (order : Nat)
    (k : K) (v : V) (es : List (K × V)) (cs : List (BTreeNode K V))
    (child : BTreeNode K V) (midE : K × V) (tail : List (K × V))
    (hc : cs.get? (childIndexFor cmp k es) = some child)
    (hfull : child.entriesList.length = order - 1)
    (hd : child.entriesList.drop ((order - 1) / 2) = midE :: tail) :
    insertNonFull cmp order k v (.mk es cs false) =
      .mk (es.insertIdx (childIndexFor cmp k es) midE)
        (((cs.set (childIndexFor cmp k es) (splitLeft child ((order - 1) / 2))).insertIdx
            (childIndexFor cmp k es + 1) (splitRight child ((order - 1) / 2))).set
          (if 0 < cmp k midE.1 then childIndexFor cmp k es + 1 else childIndexFor cmp k es)
          (insertNonFull cmp order k v
            (if 0 < cmp k midE.1 then splitRight child ((order - 1) / 2)
             else splitLeft child ((order - 1) / 2))))
        false := by
  simp only [insertNonFull]
  split
  · rename_i hc2
    rw [hc2] at hc
    cases hc
  · rename_i child2 hc2
    rw [hc] at hc2
    cases hc2
    rw [if_pos hfull]
    split
    · rename_i hd2
      rw [hd2] at hd
      cases hd
    · rename_i midE2 tail2 hd2
      rw [hd] at hd2
      cases hd2
      rfl

theorem insertNonFull_descend {K V : Type} (cmp : K → K → Int) (order : Nat)
    (k : K) (v : V) (es : List (K × V)) (cs : List (BTreeNode K V))
    (child : BTreeNode K V)
    (hc : cs.get? (childIndexFor cmp k es) = some child)
    (hnotfull : ¬child.entriesList.length = order - 1) :
    insertNonFull cmp order k v (.mk es cs false) =
      .mk es (cs.set (childIndexFor cmp k es) (insertNonFull cmp order k v child)) false := by
  simp only [insertNonFull]
  split
  · rename_i hc2
    rw [hc2] at hc
    cases hc
  · rename_i child2 hc2
    rw [hc] at hc2
    cases hc2
    rw [if_neg hnotfull]

theorem WF_insertNonFull {K V : Type} (cmp : K → K → Int) (order : Nat)
    (k : K) (v : V) (h3 : 3 ≤ order) :
    ∀ n : BTreeNode K V, WFNode n → WFNode (insertNonFull cmp order k v n) := by
  intro n
  induction n using insertNonFull.induct cmp order k v with
  | case1 es cs =>
    intro hWF
    cases hWF with
    | leaf es =>
      rw [insertNonFull_leaf]
      exact WFNode.leaf _
  | case2 es cs hc =>
    intro hWF
    rw [insertNonFull_none cmp order k v es cs hc]
    exact hWF
  | case3 es cs child hc hfull hd =>
    intro hWF
    rw [insertNonFull_stuck cmp order k v es cs child hc hfull hd]
    exact hWF
  | case4 es cs child hc hfull midE tail hd lft rgt ih =>
    intro hWF
    cases hWF with
    | internal es cs hlen hcs =>
      rw [insertNonFull_split cmp order k v es cs child midE tail hc hfull hd]
      have hile : childIndexFor cmp k es ≤ es.length := childIndexFor_le cmp k es
      have hilt : childIndexFor cmp k es < cs.length := by omega
      have hWFchild : WFNode child := hcs child (List.get?_mem hc)
      have hmid : (order - 1) / 2 < child.entriesList.length := by
        rw [hfull]; omega
      have hWFleft := WF_splitLeft child ((order - 1) / 2) hWFchild hmid
      have hWFright := WF_splitRight child ((order - 1) / 2) hWFchild hmid
      have hWFtgt : WFNode (if 0 < cmp k midE.1 then
          splitRight child ((order - 1) / 2) else splitLeft child ((order - 1) / 2)) := by
        by_cases hgt : 0 < cmp k midE.1
        · rw [if_pos hgt]; exact hWFright
        · rw [if_neg hgt]; exact hWFleft
      have hWFtgt' := ih hWFtgt
      refine WFNode.internal _ _ ?_ ?_
      · have l1 := @List.length_insertIdx (K × V) midE (childIndexFor cmp k es) es hile
        have l2 : (cs.set (childIndexFor cmp k es)
            (splitLeft child ((order - 1) / 2))).length = cs.length :=
          List.length_set cs _ _
        have l3 := @List.length_insertIdx (BTreeNode K V)
          (splitRight child ((order - 1) / 2)) (childIndexFor cmp k es + 1)
          (cs.set (childIndexFor cmp k es) (splitLeft child ((order - 1) / 2)))
          (by rw [l2]; omega)
        rw [List.length_set, l3, l2, l1]
        omega
      · intro c hcmem
        rcases List.mem_or_eq_of_mem_set hcmem with hmem2 | hceq
        · have hperm : ((cs.set (childIndexFor cmp k es)
              (splitLeft child ((order - 1) / 2))).insertIdx
                (childIndexFor cmp k es + 1)
                (splitRight child ((order - 1) / 2))).Perm
              (splitRight child ((order - 1) / 2) ::
                cs.set (childIndexFor cmp k es)
                  (splitLeft child ((order - 1) / 2))) :=
            List.perm_insertNth _ _ (by rw [List.length_set]; omega)
          rcases List.mem_cons.mp (hperm.mem_iff.mp hmem2) with hceq2 | hmem3
          · rw [hceq2]; exact hWFright
          · rcases List.mem_or_eq_of_mem_set hmem3 with hmem4 | hceq3
            · exact hcs c hmem4
            · rw [hceq3]; exact hWFleft
        · rw [hceq]
          exact hWFtgt'
  | case5 es cs child hc hnotfull ih =>
    intro hWF
    cases hWF with
    | internal es cs hlen hcs =>
      rw [insertNonFull_descend cmp order k v es cs child hc hnotfull]
      have hWFchild : WFNode child := hcs child (List.get?_mem hc)
      refine WFNode.internal _ _ ?_ ?_
      · rw [List.length_set]; omega
      · intro c hcmem
        rcases List.mem_or_eq_of_mem_set hcmem with hmem2 | hceq
        · exact hcs c hmem2
        · rw [hceq]
          exact ih hWFchild

theorem nodeM_insertNonFull {K V : Type} (cmp : K → K → Int) (order : Nat)
    (k : K) (v : V) (h3 : 3 ≤ order) :
    ∀ n : BTreeNode K V, WFNode n →
      nodeM (insertNonFull cmp order k v n) = (k, v) ::ₘ nodeM n := by
  intro n
  induction n using insertNonFull.induct cmp order k v with
  | case1 es cs =>
    intro hWF
    rw [insertNonFull_leaf, nodeM_leaf, nodeM_leaf]
    exact leafInsertEntry_coe cmp k v es
  | case2 es cs hc =>
    intro hWF
    cases hWF with
    | internal es cs hlen hcs =>
      exfalso
      have hile : childIndexFor cmp k es ≤ es.length := childIndexFor_le cmp k es
      have := List.get?_eq_none.mp hc
      omega
  | case3 es cs child hc hfull hd =>
    intro hWF
    exfalso
    have hlen := List.drop_eq_nil_iff.mp hd
    rw [hfull] at hlen
    omega
  | case4 es cs child hc hfull midE tail hd lft rgt ih =>
    intro hWF
    cases hWF with
    | internal es cs hlen hcs =>
      rw [insertNonFull_split cmp order k v es cs child midE tail hc hfull hd]
      have hile : childIndexFor cmp k es ≤ es.length := childIndexFor_le cmp k es
      have hilt : childIndexFor cmp k es < cs.length := by omega
      have hWFchild : WFNode child := hcs child (List.get?_mem hc)
      have hmid : (order - 1) / 2 < child.entriesList.length := by
        rw [hfull]; omega
      have hmidE : child.entriesList.get? ((order - 1) / 2) = some midE :=
        get?_of_drop_cons hd
      have hWFtgt : WFNode (if 0 < cmp k midE.1 then
          splitRight child ((order - 1) / 2) else splitLeft child ((order - 1) / 2)) := by
        by_cases hgt : 0 < cmp k midE.1
        · rw [if_pos hgt]
          exact WF_splitRight child ((order - 1) / 2) hWFchild hmid
        · rw [if_neg hgt]
          exact WF_splitLeft child ((order - 1) / 2) hWFchild hmid
      have hE4 : nodeM (insertNonFull cmp order k v
            (if 0 < cmp k midE.1 then splitRight child ((order - 1) / 2)
             else splitLeft child ((order - 1) / 2))) =
          (k, v) ::ₘ nodeM (if 0 < cmp k midE.1 then splitRight child ((order - 1) / 2)
             else splitLeft child ((order - 1) / 2)) := ih hWFtgt
      have hesM : (↑(es.insertIdx (childIndexFor cmp k es) midE) : Multiset (K × V)) =
          midE ::ₘ ↑es := insertIdx_coe es midE _ hile
      have hAlen : (cs.set (childIndexFor cmp k es)
          (splitLeft child ((order - 1) / 2))).length = cs.length := List.length_set cs _ _
      have hBi : ((cs.set (childIndexFor cmp k es)
          (splitLeft child ((order - 1) / 2))).insertIdx
            (childIndexFor cmp k es + 1)
            (splitRight child ((order - 1) / 2))).get?
          (if 0 < cmp k midE.1 then childIndexFor cmp k es + 1 else childIndexFor cmp k es) =
          some (if 0 < cmp k midE.1 then splitRight child ((order - 1) / 2)
            else splitLeft child ((order - 1) / 2)) := by
        by_cases hgt : 0 < cmp k midE.1
        · rw [if_pos hgt, if_pos hgt]
          exact get?_insertIdx_self _ _ _ (by rw [hAlen]; omega)
        · rw [if_neg hgt, if_neg hgt]
          rw [get?_insertIdx_of_lt _ _ _ _ (by omega)]
          exact List.get?_set_eq_of_lt _ hilt
      have hE1 := mapSum_set
        ((cs.set (childIndexFor cmp k es)
          (splitLeft child ((order - 1) / 2))).insertIdx
            (childIndexFor cmp k es + 1) (splitRight child ((order - 1) / 2)))
        (insertNonFull cmp order k v
          (if 0 < cmp k midE.1 then splitRight child ((order - 1) / 2)
           else splitLeft child ((order - 1) / 2)))
        (if 0 < cmp k midE.1 then splitRight child ((order - 1) / 2)
         else splitLeft child ((order - 1) / 2))
        (if 0 < cmp k midE.1 then childIndexFor cmp k es + 1 else childIndexFor cmp k es)
        nodeM hBi
      have hE2 := mapSum_insertIdx
        (cs.set (childIndexFor cmp k es) (splitLeft child ((order - 1) / 2)))
        (splitRight child ((order - 1) / 2))
        (childIndexFor cmp k es + 1) nodeM (by rw [hAlen]; omega)
      have hE3 := mapSum_set cs (splitLeft child ((order - 1) / 2)) child
        (childIndexFor cmp k es) nodeM hc
      have hE5 := nodeM_split child ((order - 1) / 2) hWFchild hmid midE hmidE
      rw [nodeM_internal, nodeM_internal, hesM]
      classical
      refine Multiset.ext.mpr fun a => ?_
      have c1 := congrArg (Multiset.count a) hE1
      have c2 := congrArg (Multiset.count a) hE2
      have c3 := congrArg (Multiset.count a) hE3
      have c4 := congrArg (Multiset.count a) hE4
      have c5 := congrArg (Multiset.count a) hE5
      by_cases hgt : 0 < cmp k midE.1
      · simp only [if_pos hgt, Multiset.count_add, Multiset.count_cons] at c1 c2 c3 c4 c5 ⊢
        omega
      · simp only [if_neg hgt, Multiset.count_add, Multiset.count_cons] at c1 c2 c3 c4 c5 ⊢
        omega
  | case5 es cs child hc hnotfull ih =>
    intro hWF
    cases hWF with
    | internal es cs hlen hcs =>
      rw [insertNonFull_descend cmp order k v es cs child hc hnotfull]
      have hWFchild : WFNode child := hcs child (List.get?_mem hc)
      have hE4 := ih hWFchild
      have hE1 := mapSum_set cs (insertNonFull cmp order k v child) child
        (childIndexFor cmp k es) nodeM hc
      rw [nodeM_internal, nodeM_internal]
      classical
      refine Multiset.ext.mpr fun a => ?_
      have c1 := congrArg (Multiset.count a) hE1
      have c4 := congrArg (Multiset.count a) hE4
      simp only [Multiset.count_add, Multiset.count_cons] at c1 c4 ⊢
      omega

theorem travGo_some_leaf {K V : Type} {es : List (K × V)}
    {cs : List (BTreeNode K V)} {i : Nat} {e : K × V} (he : es.get? i = some e) :
    travGo (.mk es cs true) i = e :: travGo (.mk es cs true) (i + 1) := by
  rw [travGo]
  split
  · rename_i e2 he2
    rw [he] at he2
    cases he2
    rfl
  · rename_i he2
    rw [he] at he2
    cases he2

theorem travGo_some_child {K V : Type} {es : List (K × V)}
    {cs : List (BTreeNode K V)} {i : Nat} {e : K × V} {c : BTreeNode K V}
    (he : es.get? i = some e) (hcc : cs.get? i = some c) :
    travGo (.mk es cs false) i = travGo c 0 ++ e :: travGo (.mk es cs false) (i + 1) := by
  rw [travGo]
  split
  · rename_i e2 he2
    rw [he] at he2
    cases he2
    simp only [Bool.false_eq_true, if_false]
    split
    · rename_i c2 hcc2
      rw [hcc] at hcc2
      cases hcc2
      rfl
    · rename_i hcc2
      rw [hcc] at hcc2
      cases hcc2
  · rename_i he2
    rw [he] at he2
    cases he2

theorem travGo_none_leaf {K V : Type} {es : List (K × V)}
    {cs : List (BTreeNode K V)} {i : Nat} (he : es.get? i = none) :
    travGo (.mk es cs true) i = [] := by
  rw [travGo]
  split
  · rename_i e2 he2
    rw [he] at he2
    cases he2
  · simp

theorem travGo_none_child {K V : Type} {es : List (K × V)}
    {cs : List (BTreeNode K V)} {i : Nat} {c : BTreeNode K V}
    (he : es.get? i = none) (hcc : cs.get? i = some c) :
    travGo (.mk es cs false) i = travGo c 0 := by
  rw [travGo]
  split
  · rename_i e2 he2
    rw [he] at he2
    cases he2
  · simp only [Bool.false_eq_true, if_false]
    split
    · rename_i c2 hcc2
      rw [hcc] at hcc2
      cases hcc2
      rfl
    · rename_i hcc2
      rw [hcc] at hcc2
      cases hcc2

theorem travGo_none_none {K V : Type} {es : List (K × V)}
    {cs : List (BTreeNode K V)} {i : Nat}
    (he : es.get? i = none) (hcc : cs.get? i = none) :
    travGo (.mk es cs false) i = [] := by
  rw [travGo]
  split
  · rename_i e2 he2
    rw [he] at he2
    cases he2
  · simp only [Bool.false_eq_true, if_false]
    split
    · rename_i c2 hcc2
      rw [hcc] at hcc2
      cases hcc2
    · rfl

/-- `nodeM` as entry list plus child contents, valid on well-formed nodes. -/
theorem nodeM_eq_parts {K V : Type} {c : BTreeNode K V} (hWF : WFNode c) :
    nodeM c = ↑c.entriesList + ((c.childrenList.map nodeM).sum) := by
  cases hWF with
  | leaf es => simp [nodeM_leaf, BTreeNode.entriesList, BTreeNode.childrenList]
  | internal es cs hlen hcs => simp [nodeM_internal, BTreeNode.entriesList, BTreeNode.childrenList]

/-- The in-order traversal starting at position `i` enumerates the entries
from position `i` on and the contents of the children from position `i` on. -/
theorem travGo_spec {K V : Type} :
    ∀ (n : BTreeNode K V) (i : Nat), WFNode n →
      (↑(travGo n i) : Multiset (K × V)) =
        ↑(n.entriesList.drop i) + (((n.childrenList.drop i).map nodeM).sum) := by
  intro n i
  induction n, i using travGo.induct with
  | case1 es cs leaf i e he ihc ihnext =>
    intro hWF
    cases hWF with
    | leaf es =>
      rw [travGo_some_leaf he]
      have hnext := ihnext (WFNode.leaf es)
      simp only [BTreeNode.entriesList, BTreeNode.childrenList] at hnext ⊢
      have hi : i < es.length := by
        by_contra hcon
        rw [List.get?_eq_none.mpr (Nat.le_of_not_lt hcon)] at he
        cases he
      have hdrop : es.drop i = e :: es.drop (i + 1) := by
        have h1 := List.drop_eq_get_cons (l := es) (n := i) hi
        have h2 : es.get ⟨i, hi⟩ = e := by
          have := List.get?_eq_get (l := es) (n := i) hi
          rw [this] at he
          exact Option.some.inj he
        rw [h2] at h1
        exact h1
      rw [hdrop]
      simp only [List.drop_nil, List.map_nil, Multiset.sum_zero, List.sum_nil] at hnext ⊢
      rw [show ((↑(e :: travGo (BTreeNode.mk es ([] : List (BTreeNode K V)) true) (i + 1))) :
        Multiset (K × V)) = e ::ₘ ↑(travGo (BTreeNode.mk es ([] : List (BTreeNode K V)) true)
          (i + 1)) from rfl]
      rw [hnext]
      rfl
    | internal es cs hlen hcs =>
      have hi : i < es.length := by
        by_contra hcon
        rw [List.get?_eq_none.mpr (Nat.le_of_not_lt hcon)] at he
        cases he
      have hic : i < cs.length := by omega
      rcases hcc : cs.get? i with _ | c
      · rw [List.get?_eq_none] at hcc
        omega
      · rw [travGo_some_child he hcc]
        have hWFc : WFNode c := hcs c (List.get?_mem hcc)
        have hchild := ihc c hcc hWFc
        simp only [List.drop_zero] at hchild
        rw [← nodeM_eq_parts hWFc] at hchild
        have hnext := ihnext (WFNode.internal es cs hlen hcs)
        simp only [BTreeNode.entriesList, BTreeNode.childrenList] at hnext ⊢
        have hdropE : es.drop i = e :: es.drop (i + 1) := by
          have h1 := List.drop_eq_get_cons (l := es) (n := i) hi
          have h2 : es.get ⟨i, hi⟩ = e := by
            have := List.get?_eq_get (l := es) (n := i) hi
            rw [this] at he
            exact Option.some.inj he
          rw [h2] at h1
          exact h1
        have hdropC : cs.drop i = c :: cs.drop (i + 1) := by
          have h1 := List.drop_eq_get_cons (l := cs) (n := i) hic
          have h2 : cs.get ⟨i, hic⟩ = c := by
            have := List.get?_eq_get (l := cs) (n := i) hic
            rw [this] at hcc
            exact Option.some.inj hcc
          rw [h2] at h1
          exact h1
        rw [hdropE, hdropC]
        rw [show ((↑(travGo c 0 ++ e :: travGo (BTreeNode.mk es cs false) (i + 1))) :
          Multiset (K × V)) =
          ↑(travGo c 0) + (e ::ₘ ↑(travGo (BTreeNode.mk es cs false) (i + 1))) from rfl]
        rw [hchild, hnext]
        simp only [List.map_cons, List.sum_cons]
        classical
        refine Multiset.ext.mpr fun a => ?_
        simp only [← Multiset.cons_coe, Multiset.count_add, Multiset.count_cons]
        omega
  | case2 es cs i he =>
    intro hWF
    rw [travGo_none_leaf he]
    cases hWF with
    | leaf es =>
      simp only [BTreeNode.entriesList, BTreeNode.childrenList]
      rw [List.drop_eq_nil_iff.mpr (List.get?_eq_none.mp he)]
      simp
  | case3 es cs leaf i he hnl c hcc ih =>
    intro hWF
    cases hWF with
    | leaf es => simp at hnl
    | internal es cs hlen hcs =>
      rw [travGo_none_child he hcc]
      have hWFc : WFNode c := hcs c (List.get?_mem hcc)
      have hchild := ih hWFc
      simp only [List.drop_zero] at hchild
      rw [← nodeM_eq_parts hWFc] at hchild
      simp only [BTreeNode.entriesList, BTreeNode.childrenList]
      have hie : es.length ≤ i := List.get?_eq_none.mp he
      have hic : i < cs.length := by
        by_contra hcon
        rw [List.get?_eq_none.mpr (Nat.le_of_not_lt hcon)] at hcc
        cases hcc
      have hieq : i = es.length := by omega
      have hdropC : cs.drop i = [c] := by
        have h1 := List.drop_eq_get_cons (l := cs) (n := i) hic
        have h2 : cs.get ⟨i, hic⟩ = c := by
          have := List.get?_eq_get (l := cs) (n := i) hic
          rw [this] at hcc
          exact Option.some.inj hcc
        rw [h2] at h1
        have h3 : cs.drop (i + 1) = [] := List.drop_eq_nil_iff.mpr (by omega)
        rw [h3] at h1
        exact h1
      rw [List.drop_eq_nil_iff.mpr (by omega), hdropC, hchild]
      simp
  | case4 es cs leaf i he hnl hcc =>
    intro hWF
    cases hWF with
    | leaf es => simp at hnl
    | internal es cs hlen hcs =>
      rw [travGo_none_none he hcc]
      simp only [BTreeNode.entriesList, BTreeNode.childrenList]
      rw [List.drop_eq_nil_iff.mpr (List.get?_eq_none.mp he),
        List.drop_eq_nil_iff.mpr (List.get?_eq_none.mp hcc)]
      simp

/-- On a well-formed tree, `toArray` enumerates exactly the stored multiset. -/
theorem toArray_nodeM {K V : Type} (t : BTree K V) (h : WFNode t.root) :
    (↑t.toArray : Multiset (K × V)) = nodeM t.root := by
  rw [BTree.toArray, travGo_spec t.root 0 h, nodeM_eq_parts h]
  simp

theorem order_insert {K V : Type} (t : BTree K V) (k : K) (v : V) :
    (t.insert k v).order = t.order := by
  rw [BTree.insert]
  split
  · split <;> rfl
  · rfl

theorem cmp_insert {K V : Type} (t : BTree K V) (k : K) (v : V) :
    (t.insert k v).cmp = t.cmp := by
  rw [BTree.insert]
  split
  · split <;> rfl
  · rfl

theorem WF_insert {K V : Type} (t : BTree K V) (k : K) (v : V)
    (h3 : 3 ≤ t.order) (h : WFNode t.root) : WFNode (t.insert k v).root := by
  rw [BTree.insert]
  split
  · rename_i hfull
    split
    · rename_i hd
      exact WF_insertNonFull t.cmp t.order k v h3 t.root h
    · rename_i midE tail hd
      have hmid : (t.order - 1) / 2 < t.root.entriesList.length := by
        rw [hfull]; omega
      refine WF_insertNonFull t.cmp t.order k v h3 _ ?_
      refine WFNode.internal _ _ (by simp) ?_
      intro c hcmem
      simp only [List.mem_cons, List.mem_singleton, List.not_mem_nil, or_false] at hcmem
      rcases hcmem with hceq | hceq <;> rw [hceq]
      · exact WF_splitLeft t.root ((t.order - 1) / 2) h hmid
      · exact WF_splitRight t.root ((t.order - 1) / 2) h hmid
  · exact WF_insertNonFull t.cmp t.order k v h3 t.root h

theorem toArray_insert {K V : Type} (t : BTree K V) (k : K) (v : V)
    (h3 : 3 ≤ t.order) (h : WFNode t.root) :
    (↑(t.insert k v).toArray : Multiset (K × V)) = (k, v) ::ₘ ↑t.toArray := by
  rw [toArray_nodeM t h, toArray_nodeM (t.insert k v) (WF_insert t k v h3 h)]
  rw [BTree.insert]
  split
  · rename_i hfull
    split
    · rename_i hd
      exfalso
      have hlen := List.drop_eq_nil_iff.mp hd
      rw [hfull] at hlen
      omega
    · rename_i midE tail hd
      have hmid : (t.order - 1) / 2 < t.root.entriesList.length := by
        rw [hfull]; omega
      have hmidE : t.root.entriesList.get? ((t.order - 1) / 2) = some midE :=
        get?_of_drop_cons hd
      have hWFnew : WFNode (BTreeNode.mk [midE]
          [splitLeft t.root ((t.order - 1) / 2), splitRight t.root ((t.order - 1) / 2)]
          false) := by
        refine WFNode.internal _ _ (by simp) ?_
        intro c hcmem
        simp only [List.mem_cons, List.mem_singleton, List.not_mem_nil, or_false] at hcmem
        rcases hcmem with hceq | hceq <;> rw [hceq]
        · exact WF_splitLeft t.root ((t.order - 1) / 2) h hmid
        · exact WF_splitRight t.root ((t.order - 1) / 2) h hmid
      have hnewM : nodeM (BTreeNode.mk [midE]
          [splitLeft t.root ((t.order - 1) / 2), splitRight t.root ((t.order - 1) / 2)]
          false) = nodeM t.root := by
        rw [nodeM_internal]
        have hparts := nodeM_split t.root ((t.order - 1) / 2) h hmid midE hmidE
        classical
        refine Multiset.ext.mpr fun a => ?_
        have c1 := congrArg (Multiset.count a) hparts
        simp only [List.map_cons, List.map_nil, List.sum_cons, List.sum_nil,
          ← Multiset.cons_coe, Multiset.count_add, Multiset.count_cons,
          Multiset.coe_nil, Multiset.count_zero, add_zero] at c1 ⊢
        omega
      rw [nodeM_insertNonFull t.cmp t.order k v h3 _ hWFnew, hnewM]
  · rw [nodeM_insertNonFull t.cmp t.order k v h3 _ h]

/-- Repeated insertion (well-formedness, order stability and multiset
content in one statement, proved by induction along the list). -/
theorem foldl_insert_spec {K V : Type} (l : List (K × V)) :
    ∀ t : BTree K V, 3 ≤ t.order → WFNode t.root →
      WFNode ((l.foldl (fun acc e => acc.insert e.1 e.2) t).root) ∧
      (l.foldl (fun acc e => acc.insert e.1 e.2) t).order = t.order ∧
      (↑(l.foldl (fun acc e => acc.insert e.1 e.2) t).toArray : Multiset (K × V)) =
        ↑l + ↑t.toArray := by
  induction l with
  | nil =>
    intro t h3 h
    refine ⟨h, rfl, ?_⟩
    simp
  | cons e rest ih =>
    intro t h3 h
    simp only [List.foldl_cons]
    have h3' : 3 ≤ (t.insert e.1 e.2).order := by rw [order_insert]; exact h3
    have hWF' := WF_insert t e.1 e.2 h3 h
    obtain ⟨ha, hb, hcM⟩ := ih (t.insert e.1 e.2) h3' hWF'
    refine ⟨ha, by rw [hb, order_insert], ?_⟩
    rw [hcM, toArray_insert t e.1 e.2 h3 h]
    classical
    refine Multiset.ext.mpr fun a => ?_
    simp only [← Multiset.cons_coe, Multiset.count_add, Multiset.count_cons, Prod.mk.eta]
    omega

/-! ### JavaScript errors and `Map` objects

Each constructor corresponds to one `throw new Error(...)` site of the
source; the message strings are recorded in the comments. -/

inductive JsError where
  /-- "Unique constraint violation: Value ... already exists in index ..."
  (`src/src/lib/index.ts`, `Index.add`). -/
  | uniqueViolation (indexName : String) (value : Value)
  /-- "Index ... already exists" (`IndexManager.createIndex`). -/
  | indexExists (name : String)
  /-- "Validation error: Field ... is expected to be of type ..., but got ..."
  (`src/src/lib/record.ts`, `MockRecord.validateRecord`). -/
  | validationError (field : String) (expected : String)
  /-- "No index found on field ..." (`MockCollection.findByRange`). -/
  | missingIndex (field : String)
  /-- "Invalid database file: magic number mismatch" (`src/unnamed/part_010`). -/
  | invalidMagic
  /-- "Unsupported database version: ..." (`src/unnamed/part_010`). -/
  | unsupportedVersion (v : Nat)
  /-- "Invalid binary format: magic number mismatch" (`binary-storage.ts`). -/
  | binaryInvalidMagic
  /-- "Unsupported format version: ..." (`binary-storage.ts`). -/
  | binaryUnsupportedVersion (v : Nat)
  /-- Node `RangeError` from an out-of-bounds `Buffer` read. -/
  | rangeError
  deriving DecidableEq

/-- JS `Map.has`. -/
def jsMapHas {α β : Type} [DecidableEq α] (m : List (α × β)) (k : α) : Bool :=
  m.any (fun e => e.1 = k)

/-- JS `Map.set`: update in place when the key exists (keeping its
position), otherwise append. -/
def jsMapSet {α β : Type} [DecidableEq α] (m : List (α × β)) (k : α) (v : β) :
    List (α × β) :=
  match m with
  | [] => [(k, v)]
  | (k2, v2) :: rest =>
    if k2 = k then (k, v) :: rest else (k2, v2) :: jsMapSet rest k v

/-- JS `Map.delete` (drops the unique entry with the key, if present). -/
def jsMapDelete {α β : Type} [DecidableEq α] (m : List (α × β)) (k : α) :
    List (α × β) :=
  match m with
  | [] => []
  | (k2, v2) :: rest =>
    if k2 = k then rest else (k2, v2) :: jsMapDelete rest k

/-! ### Views and records (`src/src/lib/record.ts`)

A `MockView` is a flat JS object `{id, ...fields}`; the embedding keeps the
id separate from the declared fields.  An absent field is a missing
association-list entry (JS `undefined`). -/

structure MockViewL where
  id : String
  fields : List (String × Value)
  deriving DecidableEq

/-- Property read `record[name]` on a view object. -/
def viewGet (v : MockViewL) (name : String) : Option Value :=
  if name = "id" then some (.str v.id) else v.fields.lookup name

structure MockRecordL where
  id : String
  record : List (String × Value)
  deriving DecidableEq

/-- `view()`: `{ id: this.id, ...this.record }`. -/
def MockRecordL.view (r : MockRecordL) : MockViewL := ⟨r.id, r.record⟩

/-- `isValidType` of the source: `typeof` dispatch per declared kind;
`null`/absent values fail every branch. -/
def isValidType (v : Option Value) (expected : String) : Bool :=
  match expected, v with
  | "string", some (.str _) => true
  | "number", some (.num _) => true
  | "boolean", some (.boolean _) => true
  | "datetime", some (.datetime _) => true
  | _, _ => false

/-- `validateRecord`: check every schema field in order, throwing on the
first mismatch. -/
def validateRecord (record : List (String × Value)) :
    List (String × String) → Except JsError Unit
  | [] => .ok ()
  | (key, t) :: rest =>
    if isValidType (record.lookup key) t then validateRecord record rest
    else .error (.validationError key t)

/-- `MockRecord` constructor: `id = id || uuid()` (the random id is passed
in as `genId`), then validation when a schema is supplied. -/
def MockRecordL.new (record : List (String × Value))
    (schema : Option (List (String × String))) (id : Option String)
    (genId : String) : Except JsError MockRecordL :=
  let theId := id.getD genId
  match schema with
  | some s =>
    match validateRecord record s with
    | .ok _ => .ok ⟨theId, record⟩
    | .error e => .error e
  | none => .ok ⟨theId, record⟩

/-! ### Schema helpers (`src/src/lib/schema.ts`)

`default` values and `relation` metadata are carried by the source's
`FieldDefinition` but are not consulted by any operation this development
reasons about, so the embedding keeps the four flags the collection engine
reads. -/

structure FieldDefinitionL where
  ftype : String
  indexed : Bool := false
  unique : Bool := false
  required : Bool := false
  hidden : Bool := false
  deriving DecidableEq

/-- `toSimpleSchemaRuntime`. -/
def toSimpleSchemaRuntime (schema : List (String × FieldDefinitionL)) :
    List (String × String) :=
  schema.map (fun e => (e.1, e.2.ftype))

/-- `extractHiddenFields`. -/
def extractHiddenFields (schema : List (String × FieldDefinitionL)) : List String :=
  schema.filterMap (fun e => if e.2.hidden then some e.1 else none)

/-- `filterHiddenFields`: copy the record and delete every hidden key. -/
def filterHiddenFieldsL (fields : List (String × Value)) (hiddenFields : List String) :
    List (String × Value) :=
  fields.filter (fun e => ¬ hiddenFields.contains e.1)

/-! ### Secondary index (`src/src/lib/index.ts`) -/

structure IndexConfigL where
  name : String
  field : String
  itype : String := "btree"
  unique : Bool := false
  deriving DecidableEq

/-- `extractIndexConfigs` (`schema.ts`): one `<field>_idx` per field marked
`index` or `unique`. -/
def extractIndexConfigs (schema : List (String × FieldDefinitionL)) :
    List IndexConfigL :=
  schema.filterMap (fun e =>
    if e.2.indexed || e.2.unique then
      some { name := e.1 ++ "_idx", field := e.1, unique := e.2.unique }
    else none)

structure Index where
  btree : BTree Value String
  config : IndexConfigL
  fieldName : String
  uniqueMap : Option (List (Value × String))

/-- `Index` constructor: a B-tree of order 32 over the default comparator;
the uniqueness map exists exactly when the index is unique. -/
def Index.new (config : IndexConfigL) : Index :=
  { btree := BTree.new 32 cmpValue
    config := config
    fieldName := config.field
    uniqueMap := if config.unique then some [] else none }

/-- `Index.add`: skip null/absent values; for a unique index throw before
touching any state when the value is present, otherwise record it in the
uniqueness map; finally insert into the B-tree. -/
def Index.add (idx : Index) (record : MockViewL) : Except JsError Index :=
  match viewGet record idx.fieldName with
  | none => .ok idx
  | some .null => .ok idx
  | some v =>
    match (if idx.config.unique then idx.uniqueMap else none) with
    | some m =>
      if jsMapHas m v then .error (.uniqueViolation idx.config.name v)
      else .ok { idx with uniqueMap := some (jsMapSet m v record.id)
                          btree := idx.btree.insert v record.id }
    | none => .ok { idx with btree := idx.btree.insert v record.id }

/-- `Index.remove`: skip null/absent values; otherwise delete the record's
field value from the B-tree and the uniqueness map.  The deletion is keyed
by the value alone - whichever record currently owns that key loses its
entry. -/
def Index.remove (idx : Index) (record : MockViewL) : Index :=
  match viewGet record idx.fieldName with
  | none => idx
  | some .null => idx
  | some v =>
    { idx with btree := (idx.btree.delete v).2
               uniqueMap := idx.uniqueMap.map (fun m => jsMapDelete m v) }

/-- `Index.search`. -/
def Index.searchId (idx : Index) (v : Value) : Option String :=
  idx.btree.search v

/-- `Index.rangeSearch`. -/
def Index.rangeSearch (idx : Index) (lo hi : Value) : List String :=
  (idx.btree.range lo hi).map (fun e => e.2)

/-- `Index.clear`. -/
def Index.clear (idx : Index) : Index :=
  { idx with btree := idx.btree.clear
             uniqueMap := idx.uniqueMap.map (fun _ => []) }

/-- `Index.getField`. -/
def Index.getField (idx : Index) : String := idx.fieldName

structure IndexStatsL where
  name : String
  field : String
  itype : String
  unique : Bool
  entries : Nat
  memoryUsage : Nat
  deriving DecidableEq

/-- `Index.getStats` (memory estimate: 100 bytes per entry). -/
def Index.getStats (idx : Index) : IndexStatsL :=
  { name := idx.config.name
    field := idx.fieldName
    itype := idx.config.itype
    unique := idx.config.unique
    entries := idx.btree.length
    memoryUsage := idx.btree.length * 100 }

/-! ### Index manager (`src/src/lib/index.ts`, class `IndexManager`) -/

structure IndexManager where
  indexes : List (String × Index)

/-- `IndexManager.createIndex`: reject duplicate names, otherwise register
a fresh index. -/
def IndexManager.createIndex (m : IndexManager) (config : IndexConfigL) :
    Except JsError (Index × IndexManager) :=
  if jsMapHas m.indexes config.name then .error (.indexExists config.name)
  else
    let idx := Index.new config
    .ok (idx, ⟨jsMapSet m.indexes config.name idx⟩)

/-- `IndexManager.dropIndex`. -/
def IndexManager.dropIndex (m : IndexManager) (name : String) :
    Bool × IndexManager :=
  (jsMapHas m.indexes name, ⟨jsMapDelete m.indexes name⟩)

/-- `IndexManager.hasIndex`. -/
def IndexManager.hasIndex (m : IndexManager) (name : String) : Bool :=
  jsMapHas m.indexes name

/-- `IndexManager.getIndexByField`: first index (in insertion order) on the
field. -/
def IndexManager.getIndexByField (m : IndexManager) (field : String) :
    Option Index :=
  (m.indexes.find? (fun e => e.2.getField = field)).map (fun e => e.2)

/-- `IndexManager.listIndexes`. -/
def IndexManager.listIndexes (m : IndexManager) : List String :=
  m.indexes.map (fun e => e.1)

/-- `IndexManager.getAllStats`. -/
def IndexManager.getAllStats (m : IndexManager) : List IndexStatsL :=
  m.indexes.map (fun e => e.2.getStats)

/-- `IndexManager.clearAll`. -/
def IndexManager.clearAll (m : IndexManager) : IndexManager :=
  ⟨m.indexes.map (fun e => (e.1, e.2.clear))⟩

/-- `IndexManager.removeFromIndexes`: remove the record from every index. -/
def IndexManager.removeFromIndexes (m : IndexManager) (record : MockViewL) :
    IndexManager :=
  ⟨m.indexes.map (fun e => (e.1, e.2.remove record))⟩

/-- `IndexManager.rebuildAll`: clear every index, then add every record to
every index, skipping (with a console warning) records that violate a
constraint. -/
def IndexManager.rebuildAll (m : IndexManager) (records : List MockViewL) :
    IndexManager :=
  records.foldl
    (fun acc r =>
      ⟨acc.indexes.map (fun e =>
        (e.1, match e.2.add r with
              | .ok i => i
              | .error _ => e.2))⟩)
    m.clearAll

/-- Loop of `IndexManager.addToIndexes`: add the record to each index in
iteration order; when one of them throws, run `removeFromIndexes(record)`
on the state reached so far (the indexes already updated plus the
untouched rest) and surface the error. -/
def addToIndexesGo (record : MockViewL) (done rest : List (String × Index)) :
    Option JsError × List (String × Index) :=
  match rest with
  | [] => (none, done)
  | (n, idx) :: rs =>
    match idx.add record with
    | .ok idx2 => addToIndexesGo record (done ++ [(n, idx2)]) rs
    | .error e =>
      (some e, (done ++ (n, idx) :: rs).map (fun p => (p.1, p.2.remove record)))

/-- `IndexManager.addToIndexes` (returns the error, when any, together
with the resulting manager state, since the source mutates in place). -/
def IndexManager.addToIndexes (m : IndexManager) (record : MockViewL) :
    Option JsError × IndexManager :=
  let r := addToIndexesGo record [] m.indexes
  (r.1, ⟨r.2⟩)

/-! ### Collection engine (`src/src/lib/collection.ts`, schema-aware
`MockCollection`)

The mutex and the `async` wrappers serialize operations; the embedding
models each operation as an atomic state transition.  The `onModify`
subscriber list only feeds the storage-level auto-commit, which is
modelled separately (`commitTimes` below). -/

structure MockCollectionL where
  btree : BTree String MockRecordL
  indexManager : IndexManager
  schema : List (String × String)
  hiddenFields : List String

/-- `filterHidden` of the collection. -/
def MockCollectionL.filterHidden (c : MockCollectionL) (view : MockViewL) :
    MockViewL :=
  if c.hiddenFields.length = 0 then view
  else ⟨view.id, filterHiddenFieldsL view.fields c.hiddenFields⟩

/-- `createIndex` of the collection: register the index with the manager
(duplicate names throw), then build it from the existing records, skipping
(with a console warning) any record whose addition violates a constraint.
The registered `Index` object and the one being built are the same JS
object, so the built state is what the manager ends up holding. -/
def MockCollectionL.createIndex (c : MockCollectionL) (config : IndexConfigL) :
    Except JsError Unit × MockCollectionL :=
  match c.indexManager.createIndex config with
  | .error e => (.error e, c)
  | .ok (idx, m2) =>
    let records := c.btree.toArray.map (fun e => e.2.view)
    let builtIdx := records.foldl
      (fun acc r =>
        match acc.add r with
        | .ok i => i
        | .error _ => acc)
      idx
    (.ok (), { c with indexManager := ⟨jsMapSet m2.indexes config.name builtIdx⟩ })

/-- `MockCollection` constructor: convert the schema, extract hidden
fields, then auto-create one index per `index`/`unique` field
(`initializeAutoIndexes`, which warns and continues on failure). -/
def MockCollectionL.new (cschema : List (String × FieldDefinitionL)) :
    MockCollectionL :=
  let base : MockCollectionL :=
    { btree := BTree.new 64 cmpString
      indexManager := ⟨[]⟩
      schema := toSimpleSchemaRuntime cschema
      hiddenFields := extractHiddenFields cschema }
  (extractIndexConfigs cschema).foldl (fun c cfg => (c.createIndex cfg).2) base

/-- Insertion loop of `init`: each view is turned into a `MockRecord`
(validated against the schema, which may throw) and inserted into the
primary B-tree under its id. -/
def initGo (c : MockCollectionL) : List MockViewL →
    Except JsError Unit × MockCollectionL
  | [] => (.ok (), c)
  | view :: rest =>
    match MockRecordL.new view.fields (some c.schema) (some view.id) view.id with
    | .error e => (.error e, c)
    | .ok record => initGo { c with btree := c.btree.insert view.id record } rest

/-- `init`: clear the primary tree and all indexes, insert every view,
then `rebuildAll` the indexes from the data. -/
def MockCollectionL.init (c : MockCollectionL) (data : List MockViewL) :
    Except JsError Unit × MockCollectionL :=
  let c0 : MockCollectionL :=
    { c with btree := c.btree.clear, indexManager := c.indexManager.clearAll }
  match initGo c0 data with
  | (.error e, c1) => (.error e, c1)
  | (.ok _, c1) =>
    (.ok (), { c1 with indexManager := c1.indexManager.rebuildAll data })

/-- `add`: construct and validate the record (its fresh random id is the
`genId` argument), try `addToIndexes` first, and only on success insert
into the primary B-tree; the filtered view is returned. -/
def MockCollectionL.add (c : MockCollectionL) (genId : String)
    (value : List (String × Value)) :
    Except JsError MockViewL × MockCollectionL :=
  match MockRecordL.new value (some c.schema) none genId with
  | .error e => (.error e, c)
  | .ok record =>
    let view := record.view
    match c.indexManager.addToIndexes view with
    | (some e, m2) => (.error e, { c with indexManager := m2 })
    | (none, m2) =>
      (.ok (c.filterHidden view),
       { c with indexManager := m2, btree := c.btree.insert view.id record })

/-- `all`: visible projections in B-tree order. -/
def MockCollectionL.all (c : MockCollectionL) : List MockViewL :=
  c.btree.toArray.map (fun e => c.filterHidden e.2.view)

/-- `allInternal`: projections including hidden fields ("Used internally
for persistence"). -/
def MockCollectionL.allInternal (c : MockCollectionL) : List MockViewL :=
  c.btree.toArray.map (fun e => e.2.view)

/-- `get`. -/
def MockCollectionL.getById (c : MockCollectionL) (id : String) : Option MockViewL :=
  (c.btree.search id).map (fun r => c.filterHidden r.view)

/-- `remove`: look the record up, delete it from the primary tree, and on
success remove it from every index. -/
def MockCollectionL.removeById (c : MockCollectionL) (id : String) :
    Bool × MockCollectionL :=
  match c.btree.search id with
  | none => (false, c)
  | some record =>
    let view := record.view
    let r := c.btree.delete id
    if r.1 then
      (true, { c with btree := r.2
                      indexManager := c.indexManager.removeFromIndexes view })
    else (false, { c with btree := r.2 })

/-- `listIndexes`. -/
def MockCollectionL.listIndexes (c : MockCollectionL) : List String :=
  c.indexManager.listIndexes

/-- `getIndexStats`. -/
def MockCollectionL.getIndexStats (c : MockCollectionL) : List IndexStatsL :=
  c.indexManager.getAllStats

/-- `getSchema`. -/
def MockCollectionL.getSchema (c : MockCollectionL) : List (String × String) :=
  c.schema

/-! ### Storage manager commit pull

`commitAll` gathers, for every live collection, its schema, its records
and an index directory `{name, field, unique}` rebuilt from
`listIndexes`/`getIndexStats`, hands them to the database file container
and rewrites the file.  The repository carries two generations of this
method: the one in `src/src/lib/storage.ts` (lines 597-619) pulls the
records with `collection.all()`, while the one in `src/unnamed/part_006`
(lines 560-585) pulls them with `collection.allInternal()`. -/

structure CommitEntry where
  name : String
  schema : List (String × String)
  records : List MockViewL
  indexes : List (String × String × Bool)
  deriving DecidableEq

/-- Index directory pulled by `commitAll`: for each index name, the
`{name, field, unique}` triple recovered from the stats (with `""`/`false`
fallbacks when the stats lookup fails). -/
def commitIndexDirectory (c : MockCollectionL) : List (String × String × Bool) :=
  c.listIndexes.map (fun idxName =>
    match (c.getIndexStats.find? (fun s => s.name = idxName)) with
    | some stats => (idxName, stats.field, stats.unique)
    | none => (idxName, "", false))

/-- `MockStorage.commitAll` of `src/src/lib/storage.ts` (lines 597-619):
records are pulled with `collection.all()`, the visible projection. -/
def commitAllData (collections : List (String × MockCollectionL)) :
    List CommitEntry :=
  collections.map (fun e =>
    { name := e.1
      schema := e.2.getSchema
      records := e.2.all
      indexes := commitIndexDirectory e.2 })

/-- `MockStorage.commitAll` of `src/unnamed/part_006` (lines 560-585):
records are pulled with `collection.allInternal()`, hidden fields
included. -/
def commitAllDataLatest (collections : List (String × MockCollectionL)) :
    List CommitEntry :=
  collections.map (fun e =>
    { name := e.1
      schema := e.2.getSchema
      records := e.2.allInternal
      indexes := commitIndexDirectory e.2 })

/-! ### Auto-commit scheduler (`src/unnamed/part_006`, `scheduleAutoCommit`,
lines 539-558)

The scheduler state is the `pendingCommit` flag and one timer.  A
modification arriving while `pendingCommit` is false sets the flag and
arms a timer for 100 ms later; the timer fires `commitAll`, and the flag
is cleared only when that rewrite completes or fails.  A modification
arriving while the flag is set returns immediately: it neither re-arms nor
queues anything (the `clearTimeout` call is unreachable while a timer is
pending, because the guard returns first).

`commitTimes d mods` computes, for a chronologically sorted list of
modification instants and a rewrite duration `d`, the instants at which
rewrites start: the first modification of a cycle starts a rewrite at
`m + 100`; every modification before that rewrite completes (at
`m + 100 + d`) is absorbed by the cycle and schedules nothing. -/

def commitTimes (d : Nat) : List Nat → List Nat
  | [] => []
  | m :: ms => (m + 100) :: commitTimes d (ms.filter (fun u => m + 100 + d ≤ u))
termination_by l => l.length
decreasing_by
  have := List.length_filter_le (fun u => decide (m + 100 + d ≤ u)) ms
  simp only [List.length_cons]
  omega

/-- Reference model written from the spec's words (§4.H / §5 auto-commit):
a debounced rewrite 100 ms after the *last* modification of a burst - the
quiet-period reading the specification describes.  Used only to compare
the code's scheduler against the claimed behaviour. -/
def quietGo (cur : Nat) : List Nat → List Nat
  | [] => [cur + 100]
  | u :: us => if u < cur + 100 then quietGo u us else (cur + 100) :: quietGo u us

/-- Reference model (spec's words): rewrite instants under quiet-period
debouncing with instantaneous rewrites. -/
def quietCommitTimes : List Nat → List Nat
  | [] => []
  | m :: ms => quietGo m ms

/-! ### Database file (`src/unnamed/part_010`) and binary codec
(`src/src/lib/binary-storage.ts`)

Buffers are byte lists; a read past the end is the Node `RangeError`.
`Buffer.toString`/`Buffer.slice` clamp their ranges and never throw.
UTF-8 decoding is modelled per byte (the development only exercises ASCII
names).  IEEE-754 doubles are kept as their raw 64-bit little-endian
payload (`cnum`/`cdatetime` bits), uninterpreted: no claim depends on the
numeric value of a stored double. -/

inductive CodecValue where
  | cstr (s : String)
  | cnum (bits : Nat)
  | cbool (b : Bool)
  | cdatetime (bits : Nat)
  | cnull
  deriving DecidableEq

/-- `Buffer.readUInt32LE`. -/
def readUInt32LE (buf : List Nat) (off : Nat) : Option Nat :=
  if off + 4 ≤ buf.length then
    some (buf.getD off 0 + 256 * buf.getD (off + 1) 0 +
      65536 * buf.getD (off + 2) 0 + 16777216 * buf.getD (off + 3) 0)
  else none

/-- `Buffer.readBigUInt64LE` (converted to `Number` by the source). -/
def readUInt64LE (buf : List Nat) (off : Nat) : Option Nat :=
  if off + 8 ≤ buf.length then
    some ((List.range 8).foldr (fun j acc => acc * 256 + buf.getD (off + j) 0) 0)
  else none

/-- `Buffer.readUInt8`. -/
def readUInt8 (buf : List Nat) (off : Nat) : Option Nat :=
  if off + 1 ≤ buf.length then some (buf.getD off 0) else none

/-- Byte-wise decoding standing in for `buf.toString("utf8", a, b)`. -/
def decodeBytes (bytes : List Nat) : String :=
  String.mk (bytes.map (fun b => Char.ofNat b))

/-- `BinaryReader.readString`: a `u32` length followed by that many bytes
(clamped, as `Buffer.toString` clamps). -/
def readStringAt (buf : List Nat) (off : Nat) : Except JsError (String × Nat) :=
  match readUInt32LE buf off with
  | none => .error .rangeError
  | some len => .ok (decodeBytes ((buf.drop (off + 4)).take len), off + 4 + len)

/-- `BinaryStorage.readSchema` loop. -/
def readSchemaGo (buf : List Nat) : Nat → Nat →
    Except JsError (List (String × String) × Nat)
  | 0, off => .ok ([], off)
  | n + 1, off => do
    let (name, off1) ← readStringAt buf off
    match readUInt8 buf off1 with
    | none => .error .rangeError
    | some code =>
      let ftype :=
        if code = 0 then "string"
        else if code = 1 then "number"
        else if code = 2 then "boolean"
        else if code = 3 then "datetime"
        else "string"
      let (rest, off2) ← readSchemaGo buf n (off1 + 1)
      .ok ((name, ftype) :: rest, off2)

/-- `BinaryStorage.readIndexes` loop. -/
def readIndexesGo (buf : List Nat) : Nat → Nat →
    Except JsError (List IndexConfigL × Nat)
  | 0, off => .ok ([], off)
  | n + 1, off => do
    let (name, off1) ← readStringAt buf off
    let (field, off2) ← readStringAt buf off1
    match readUInt8 buf off2 with
    | none => .error .rangeError
    | some flags =>
      let (rest, off3) ← readIndexesGo buf n (off2 + 1)
      .ok (({ name := name, field := field, unique := flags % 2 = 1 } :
        IndexConfigL) :: rest, off3)

/-- One field of `BinaryStorage.readRecords`: a `u8` kind code and a `u32`
length; strings rewind and re-read through `readString`, numbers and
datetimes read 8 raw bytes, booleans one byte. -/
def readFieldValue (buf : List Nat) (off : Nat) (ftype : String) :
    Except JsError (CodecValue × Nat) := do
  match readUInt8 buf off with
  | none => .error .rangeError
  | some valueType =>
    if valueType = 4 then
      match readUInt32LE buf (off + 1) with
      | none => .error .rangeError
      | some _ => .ok (.cnull, off + 5)
    else
      match readUInt32LE buf (off + 1) with
      | none => .error .rangeError
      | some _ =>
        if ftype = "string" then do
          let (s, off2) ← readStringAt buf (off + 1)
          .ok (.cstr s, off2)
        else if ftype = "number" then
          match readUInt64LE buf (off + 5) with
          | none => .error .rangeError
          | some bits => .ok (.cnum bits, off + 13)
        else if ftype = "boolean" then
          match readUInt8 buf (off + 5) with
          | none => .error .rangeError
          | some b => .ok (.cbool (¬ b = 0), off + 6)
        else if ftype = "datetime" then
          match readUInt64LE buf (off + 5) with
          | none => .error .rangeError
          | some bits => .ok (.cdatetime bits, off + 13)
        else .ok (.cnull, off + 5)

/-- Field loop of one record. -/
def readRecordFields (buf : List Nat) : List (String × String) → Nat →
    Except JsError (List (String × CodecValue) × Nat)
  | [], off => .ok ([], off)
  | (fieldName, ftype) :: rest, off => do
    let (v, off1) ← readFieldValue buf off ftype
    let (vs, off2) ← readRecordFields buf rest off1
    .ok ((fieldName, v) :: vs, off2)

/-- `BinaryStorage.readRecords` loop: each record is a `u32` length
(read and discarded), the id string, then one value per schema field. -/
def readRecordsGo (buf : List Nat) (schema : List (String × String)) :
    Nat → Nat → Except JsError (List (String × List (String × CodecValue)) × Nat)
  | 0, off => .ok ([], off)
  | n + 1, off =>
    match readUInt32LE buf off with
    | none => .error .rangeError
    | some _ => do
      let (id, off1) ← readStringAt buf (off + 4)
      let (fields, off2) ← readRecordFields buf schema off1
      let (rest, off3) ← readRecordsGo buf schema n off2
      .ok ((id, fields) :: rest, off3)

/-- `BinaryStorage.deserialize`: header checks (magic `0x4d4f434b`,
version 1), then schema, index and record sections at their recorded
offsets. -/
def binaryStorageDeserialize (buf : List Nat) :
    Except JsError (List (String × String) × List IndexConfigL ×
      List (String × List (String × CodecValue))) := do
  match readUInt32LE buf 0 with
  | none => .error .rangeError
  | some magic =>
    if ¬ magic = 0x4d4f434b then .error .binaryInvalidMagic
    else match readUInt32LE buf 4 with
    | none => .error .rangeError
    | some version =>
      if ¬ version = 1 then .error (.binaryUnsupportedVersion version)
      else
        match readUInt64LE buf 8, readUInt64LE buf 16,
            readUInt64LE buf 24, readUInt64LE buf 32 with
        | some schemaOff, some indexOff, some dataOff, some recordCount => do
          let (schema, _) ← readSchemaGo buf
            (← match readUInt32LE buf schemaOff with
               | none => .error JsError.rangeError
               | some n => pure n) (schemaOff + 4)
          let (indexes, _) ← readIndexesGo buf
            (← match readUInt32LE buf indexOff with
               | none => .error JsError.rangeError
               | some n => pure n) (indexOff + 4)
          let (records, _) ← readRecordsGo buf schema recordCount dataOff
          .ok (schema, indexes, records)
        | _, _, _, _ => .error .rangeError

/-- Parsed per-collection payload of the container. -/
structure CollectionDataL where
  name : String
  schema : List (String × String)
  records : List (String × List (String × CodecValue))
  indexes : List IndexConfigL
  deriving DecidableEq

/-- Directory loop of `DatabaseFile.deserialize`: `N` entries of
`{u32 name length, name bytes, u64 offset, u64 length}`. -/
def readDirectoryGo (buf : List Nat) : Nat → Nat →
    Except JsError (List (String × Nat × Nat) × Nat)
  | 0, off => .ok ([], off)
  | n + 1, off => do
    let (name, off1) ← readStringAt buf off
    match readUInt64LE buf off1, readUInt64LE buf (off1 + 8) with
    | some dataOffset, some dataLength => do
      let (rest, off2) ← readDirectoryGo buf n (off1 + 16)
      .ok ((name, dataOffset, dataLength) :: rest, off2)
    | _, _ => .error .rangeError

/-- Payload loop of `DatabaseFile.deserialize`: slice each collection's
bytes (`Buffer.slice` clamps) and run the binary codec on them. -/
def readPayloadsGo (buf : List Nat) :
    List (String × Nat × Nat) → Except JsError (List (String × CollectionDataL))
  | [] => .ok []
  | (name, dataOffset, dataLength) :: rest => do
    let slice := (buf.drop dataOffset).take dataLength
    let (schema, indexes, records) ← binaryStorageDeserialize slice
    let tail2 ← readPayloadsGo buf rest
    .ok ((name, (⟨name, schema, records, indexes⟩ : CollectionDataL)) :: tail2)

/-- `DatabaseFile.deserialize`: header magic `0x4d4f4442` ("MODB") and
version checks, the directory, then every payload. -/
def dbFileDeserialize (buf : List Nat) :
    Except JsError (List (String × CollectionDataL)) := do
  match readUInt32LE buf 0 with
  | none => .error .rangeError
  | some magic =>
    if ¬ magic = 0x4d4f4442 then .error .invalidMagic
    else match readUInt32LE buf 4 with
    | none => .error .rangeError
    | some version =>
      if ¬ version = 1 then .error (.unsupportedVersion version)
      else match readUInt32LE buf 8 with
      | none => .error .rangeError
      | some collectionCount => do
        let (metadata, _) ← readDirectoryGo buf collectionCount 64
        readPayloadsGo buf metadata

/-- `DatabaseFile.load`: read the file and deserialize; *any* failure
(absent file or parse error, the magic mismatch included) is caught and
leaves the in-memory container empty.  The file contents are passed in as
`none` (absent) or `some bytes`. -/
def dbFileLoad (file : Option (List Nat)) : List (String × CollectionDataL) :=
  match file with
  | none => []
  | some buf =>
    match dbFileDeserialize buf with
    | .ok m => m
    | .error _ => []

/-- `DatabaseFile.save`: `fs.writeFile` performs a full rewrite - the new
file contents are the serialized container, whatever the previous file
held.  (`MockStorage.initialize` additionally wraps its whole load phase
in a `try`/`catch` that swallows every error, so no error can surface from
it either.) -/
def dbFileSave (newBytes : List Nat) (oldFile : Option (List Nat)) :
    Option (List Nat) :=
  some newBytes

/-! ### Identifier generator (`src/unnamed/part_016`)

`uuid()` draws six uniform indices into a 62-symbol alphabet; the random
draws are passed in explicitly. -/

def uuidCharacters : String :=
  "ABCDEFGHIJKLMNOPQRSTUVWXYZabcdefghijklmnopqrstuvwxyz0123456789"

/-- `uuid()` with its six random alphabet indices made explicit. -/
def uuidFrom (picks : List Nat) : String :=
  String.mk ((List.range 6).map
    (fun j => uuidCharacters.toList.getD (picks.getD j 0) 'A'))

/-! ### Declared versus implemented collection operations

`TypedMockCollection` (`src/unnamed/part_006`, lines 231-317) is the
interface the storage manager casts its collections to; `MockCollection`
(`src/src/lib/collection.ts`, schema-aware class) is the runtime object
behind the cast.  The two method-name lists below are transcribed from
those declarations in source order. -/

def typedMockCollectionMethods : List String :=
  ["add", "all", "allInternal", "find", "first", "get", "remove", "update",
   "findByField", "findByRange", "createIndex", "dropIndex", "listIndexes",
   "getIndexStats", "getSchema", "init", "onModify", "offModify",
   "innerJoin", "leftJoin", "getRelated"]

def mockCollectionMethods : List String :=
  ["onModify", "offModify", "init", "add", "all", "allInternal", "find",
   "first", "get", "remove", "filter", "createIndex", "dropIndex",
   "listIndexes", "getIndexStats", "findByField", "findByRange",
   "getSchema", "getStats", "innerJoin", "leftJoin", "getRelated"]

/-! ### Evaluation lemmas for single-node trees

The scenarios the claims are settled on keep every B-tree inside one leaf
node (the collection trees have order 64 and the index trees order 32, and
the scenarios hold at most three entries), so the operations reduce to
their leaf cases.  These lemmas perform that reduction; they hold for
arbitrary entry lists. -/

theorem travGo_leaf_fuel {K V : Type} :
    ∀ (m : Nat) (es : List (K × V)) (cs : List (BTreeNode K V)) (i : Nat),
      es.length ≤ i + m → travGo (.mk es cs true) i = es.drop i := by
  intro m
  induction m with
  | zero =>
    intro es cs i h
    rw [travGo_none_leaf (List.get?_eq_none.mpr (by omega))]
    rw [List.drop_eq_nil_iff.mpr (by omega)]
  | succ m ih =>
    intro es cs i h
    rcases he : es.get? i with _ | e
    · rw [travGo_none_leaf he]
      rw [List.drop_eq_nil_iff.mpr (List.get?_eq_none.mp he)]
    · have hi : i < es.length := by
        by_contra hcon
        rw [List.get?_eq_none.mpr (Nat.le_of_not_lt hcon)] at he
        cases he
      rw [travGo_some_leaf he, ih es cs (i + 1) (by omega)]
      have h1 := List.drop_eq_get_cons (l := es) (n := i) hi
      have h2 : es.get ⟨i, hi⟩ = e := by
        have := List.get?_eq_get (l := es) (n := i) hi
        rw [this] at he
        exact Option.some.inj he
      rw [h2] at h1
      exact h1.symm

theorem travGo_leaf {K V : Type} (es : List (K × V)) (cs : List (BTreeNode K V))
    (i : Nat) : travGo (.mk es cs true) i = es.drop i :=
  travGo_leaf_fuel es.length es cs i (by omega)

theorem toArray_leaf {K V : Type} (t : BTree K V) (es : List (K × V))
    (cs : List (BTreeNode K V)) (h : t.root = .mk es cs true) :
    t.toArray = es := by
  rw [BTree.toArray, h, travGo_leaf]
  rfl

theorem insert_leaf {K V : Type} (t : BTree K V) (es : List (K × V))
    (cs : List (BTreeNode K V)) (k : K) (v : V) (h : t.root = .mk es cs true)
    (hne : ¬ es.length = t.order - 1) :
    t.insert k v =
      { t with root := .mk (leafInsertEntry t.cmp k v es) cs true
               size := t.size + 1 } := by
  rw [BTree.insert, h]
  rw [if_neg (by simpa [BTreeNode.entriesList] using hne)]
  rw [insertNonFull_leaf]

theorem searchNode_leaf {K V : Type} (cmp : K → K → Int) (k : K)
    (es : List (K × V)) (cs : List (BTreeNode K V)) :
    searchNode cmp k (.mk es cs true) =
      (match es.get? (scanIdx cmp k es) with
       | some e => if cmp k e.1 = 0 then some e.2 else none
       | none => none) := by
  rw [searchNode]
  rcases he : es.get? (scanIdx cmp k es) with _ | e
  · simp
  · simp

theorem search_leaf {K V : Type} (t : BTree K V) (k : K) (es : List (K × V))
    (cs : List (BTreeNode K V)) (h : t.root = .mk es cs true) :
    t.search k =
      (match es.get? (scanIdx t.cmp k es) with
       | some e => if t.cmp k e.1 = 0 then some e.2 else none
       | none => none) := by
  rw [BTree.search, h, searchNode_leaf]

theorem deleteKeyGo_leaf {K V : Type} (cmp : K → K → Int) (order fuel : Nat)
    (es : List (K × V)) (cs : List (BTreeNode K V)) (k : K) :
    deleteKeyGo cmp order (fuel + 1) (.mk es cs true) k =
      (match es.get? (scanIdx cmp k es) with
       | some e =>
         if cmp k e.1 = 0 then
           (true, BTreeNode.mk (es.eraseIdx (scanIdx cmp k es)) cs true)
         else (false, BTreeNode.mk es cs true)
       | none => (false, BTreeNode.mk es cs true)) := by
  rw [deleteKeyGo]
  rcases he : es.get? (scanIdx cmp k es) with _ | e
  · simp [deleteDescendGo, BTreeNode.leafFlag]
  · by_cases hz : cmp k e.1 = 0
    · simp [hz]
    · simp [hz, deleteDescendGo, BTreeNode.leafFlag]

theorem nodeSize_leaf {K V : Type} (es : List (K × V)) :
    nodeSize (BTreeNode.mk es ([] : List (BTreeNode K V)) true) =
      1 + es.length := by
  rw [nodeSize]
  simp

theorem delete_leaf {K V : Type} (t : BTree K V) (k : K) (es : List (K × V))
    (h : t.root = .mk es [] true) :
    t.delete k =
      (match es.get? (scanIdx t.cmp k es) with
       | some e =>
         if t.cmp k e.1 = 0 then
           (true, { t with root := BTreeNode.mk (es.eraseIdx (scanIdx t.cmp k es)) [] true
                           size := t.size - 1 })
         else (false, { t with root := BTreeNode.mk es [] true })
       | none => (false, { t with root := BTreeNode.mk es [] true })) := by
  rw [BTree.delete, h, nodeSize_leaf]
  rw [show (1 + es.length) = es.length + 1 from by omega]
  rw [deleteKeyGo_leaf]
  rcases he : es.get? (scanIdx t.cmp k es) with _ | e
  · simp
  · by_cases hz : t.cmp k e.1 = 0
    · simp [hz, BTreeNode.entriesList, BTreeNode.leafFlag]
    · simp [hz]

/-! ### Literal-tree forms of the evaluation lemmas

Restatements of the leaf lemmas over explicit `BTree` structure literals,
in the orientation the concrete scenario computations below rewrite
with. -/

@[simp] theorem entriesList_mk {K V : Type} (es : List (K × V))
    (cs : List (BTreeNode K V)) (b : Bool) :
    (BTreeNode.mk es cs b).entriesList = es := rfl

theorem toArray_mk {K V : Type} (es : List (K × V)) (cs : List (BTreeNode K V))
    (order : Nat) (cmp : K → K → Int) (size : Nat) :
    BTree.toArray ⟨.mk es cs true, order, cmp, size⟩ = es := by
  rw [BTree.toArray, travGo_leaf]
  rfl

theorem insert_mk {K V : Type} (es : List (K × V)) (cs : List (BTreeNode K V))
    (order : Nat) (cmp : K → K → Int) (size : Nat) (k : K) (v : V)
    (hne : ¬ es.length = order - 1) :
    BTree.insert ⟨.mk es cs true, order, cmp, size⟩ k v =
      ⟨.mk (leafInsertEntry cmp k v es) cs true, order, cmp, size + 1⟩ := by
  rw [BTree.insert]
  rw [if_neg (by simpa using hne)]
  rw [insertNonFull_leaf]

theorem search_mk {K V : Type} (es : List (K × V)) (cs : List (BTreeNode K V))
    (order : Nat) (cmp : K → K → Int) (size : Nat) (k : K) :
    BTree.search ⟨.mk es cs true, order, cmp, size⟩ k =
      (match es.get? (scanIdx cmp k es) with
       | some e => if cmp k e.1 = 0 then some e.2 else none
       | none => none) := by
  rw [BTree.search, searchNode_leaf]

theorem delete_mk {K V : Type} (es : List (K × V))
    (order : Nat) (cmp : K → K → Int) (size : Nat) (k : K) :
    BTree.delete ⟨.mk es [] true, order, cmp, size⟩ k =
      (match es.get? (scanIdx cmp k es) with
       | some e =>
         if cmp k e.1 = 0 then
           (true, (⟨.mk (es.eraseIdx (scanIdx cmp k es)) [] true,
             order, cmp, size - 1⟩ : BTree K V))
         else (false, ⟨.mk es [] true, order, cmp, size⟩)
       | none => (false, ⟨.mk es [] true, order, cmp, size⟩)) := by
  rw [delete_leaf ⟨.mk es [] true, order, cmp, size⟩ k es rfl]

/-! ### Comparator facts

`String.lt` does not evaluate by kernel reduction (its fast path recurses
on byte iterators), so the concrete comparisons the scenarios need are
derived from the character-list order instead. -/

theorem cmpString_ltc (a b : String) (h : a.toList < b.toList) :
    cmpString a b = -1 := by
  rw [cmpString, if_pos (String.lt_iff_toList_lt.mpr h)]

theorem cmpString_gtc (a b : String) (h1 : ¬ a.toList < b.toList)
    (h2 : b.toList < a.toList) : cmpString a b = 1 := by
  rw [cmpString, if_neg (fun hc => h1 (String.lt_iff_toList_lt.mp hc)),
    if_pos (String.lt_iff_toList_lt.mpr h2)]

theorem cmpString_eqc (a : String) : cmpString a a = 0 := by
  rw [cmpString, if_neg (fun hc => (String.lt_iff_toList_lt.mp hc).false),
    if_neg (fun hc => (String.lt_iff_toList_lt.mp hc).false)]

theorem cmpValue_str_ltc (a b : String) (h : a.toList < b.toList) :
    cmpValue (.str a) (.str b) = -1 := by
  rw [cmpValue]
  rw [if_pos (String.lt_iff_toList_lt.mpr h)]

theorem cmpValue_str_gtc (a b : String) (h1 : ¬ a.toList < b.toList)
    (h2 : b.toList < a.toList) : cmpValue (.str a) (.str b) = 1 := by
  rw [cmpValue]
  rw [if_neg (fun hc => h1 (String.lt_iff_toList_lt.mp hc)),
    if_pos (String.lt_iff_toList_lt.mpr h2)]

theorem cmpValue_str_eqc (a : String) : cmpValue (.str a) (.str a) = 0 := by
  rw [cmpValue]
  rw [if_neg (fun hc => (String.lt_iff_toList_lt.mp hc).false),
    if_neg (fun hc => (String.lt_iff_toList_lt.mp hc).false)]

/-! ### General lemmas on the JS map and the scheduler -/

theorem jsMapHas_set {α β : Type} [DecidableEq α] (m : List (α × β)) (k : α)
    (v : β) : jsMapHas (jsMapSet m k v) k = true := by
  induction m with
  | nil => simp [jsMapSet, jsMapHas]
  | cons e rest ih =>
    rw [jsMapSet]
    by_cases h : e.1 = k
    · rw [if_pos h]
      simp [jsMapHas]
    · rw [if_neg h]
      simp only [jsMapHas, List.any_cons] at ih ⊢
      simp [ih, h]

theorem commitTimes_mem (d : Nat) : ∀ (l : List Nat) (x : Nat),
    x ∈ commitTimes d l → ∃ u ∈ l, x = u + 100 := by
  intro l
  induction l using commitTimes.induct d with
  | case1 => intro x hx; rw [commitTimes] at hx; cases hx
  | case2 m ms ih =>
    intro x hx
    rw [commitTimes] at hx
    rcases List.mem_cons.mp hx with h | h
    · exact ⟨m, by simp, h⟩
    · obtain ⟨u, hu, hx2⟩ := ih x h
      exact ⟨u, by simp [List.mem_of_mem_filter hu], hx2⟩

theorem commitTimes_serialized (d : Nat) : ∀ l : List Nat,
    List.Chain' (fun a b => a + 100 + d ≤ b) (commitTimes d l) := by
  intro l
  induction l using commitTimes.induct d with
  | case1 => rw [commitTimes]; exact List.chain'_nil
  | case2 m ms ih =>
    rw [commitTimes]
    rw [List.chain'_cons']
    refine ⟨?_, ih⟩
    intro y hy
    have hmem : y ∈ commitTimes d (ms.filter (fun u => m + 100 + d ≤ u)) :=
      List.mem_of_mem_head? hy
    obtain ⟨u, hu, hy2⟩ := commitTimes_mem d _ y hmem
    have := List.of_mem_filter hu
    have h2 : m + 100 + d ≤ u := by simpa using this
    omega

theorem commitTimes_burst (d m : Nat) (ms : List Nat)
    (h : ∀ u ∈ ms, u < m + 100 + d) :
    commitTimes d (m :: ms) = [m + 100] := by
  rw [commitTimes]
  have hnil : ms.filter (fun u => m + 100 + d ≤ u) = [] := by
    rw [List.filter_eq_nil_iff]
    intro u hu
    simpa using Nat.not_le.mpr (h u hu)
  rw [hnil]
  rw [commitTimes]

/-! ### `init` on schema-valid data -/

theorem initGo_valid (data : List MockViewL) :
    ∀ c : MockCollectionL, (∀ v ∈ data, validateRecord v.fields c.schema = .ok ()) →
      initGo c data =
        (.ok (),
         { c with btree := data.foldl (fun t v => t.insert v.id ⟨v.id, v.fields⟩) c.btree }) := by
  induction data with
  | nil => intro c hval; rfl
  | cons v rest ih =>
    intro c hval
    rw [initGo]
    rw [MockRecordL.new]
    rw [hval v (by simp)]
    show initGo { c with btree := c.btree.insert v.id ⟨v.id, v.fields⟩ } rest = _
    rw [ih { c with btree := c.btree.insert v.id ⟨v.id, v.fields⟩ }
      (fun u hu => hval u (by simp [hu]))]
    simp

theorem init_valid (c : MockCollectionL) (data : List MockViewL)
    (h3 : 3 ≤ c.btree.order)
    (hval : ∀ v ∈ data, validateRecord v.fields c.schema = .ok ()) :
    (c.init data).1 = .ok () ∧
    (↑(c.init data).2.btree.toArray : Multiset (String × MockRecordL)) =
      ↑(data.map (fun v => (v.id, (⟨v.id, v.fields⟩ : MockRecordL)))) := by
  rw [MockCollectionL.init]
  have hc0 : ∀ v ∈ data, validateRecord v.fields
      ({ c with btree := c.btree.clear,
                indexManager := c.indexManager.clearAll } : MockCollectionL).schema = .ok () :=
    hval
  rw [initGo_valid data _ hc0]
  refine ⟨rfl, ?_⟩
  show (↑(data.foldl (fun t v => t.insert v.id ⟨v.id, v.fields⟩) c.btree.clear).toArray :
    Multiset (String × MockRecordL)) =
    ↑(data.map (fun v => (v.id, (⟨v.id, v.fields⟩ : MockRecordL))))
  have hfold := foldl_insert_spec
    (data.map (fun v => (v.id, (⟨v.id, v.fields⟩ : MockRecordL))))
    (c.btree.clear) (by simpa [BTree.clear] using h3) (by exact WFNode.leaf [])
  obtain ⟨hWF, horder, hM⟩ := hfold
  have hshape : (data.map (fun v => (v.id, (⟨v.id, v.fields⟩ : MockRecordL)))).foldl
      (fun acc e => acc.insert e.1 e.2) c.btree.clear =
      data.foldl (fun t v => t.insert v.id ⟨v.id, v.fields⟩) c.btree.clear := by
    rw [List.foldl_map]
  rw [← hshape]
  rw [hM]
  have hclear : (c.btree.clear).toArray = [] := by
    rw [BTree.clear, BTree.toArray]
    rw [travGo_leaf]
    rfl
  rw [hclear]
  simp

/-! ### Concrete scenarios

A users collection with a unique `email` index, driven through the insert
sequence Alice, Eve (rejected), Carol; an ages collection for
`createIndex` over duplicate values; a collection with a hidden `password`
field; a collection receiving the same generated id twice; a small
integer-keyed B-tree of order 3; and `init` runs over duplicate and
schema-invalid data. -/

def usersSchemaC : List (String × FieldDefinitionL) :=
  [("name", { ftype := "string" }),
   ("email", { ftype := "string", unique := true })]

def usersC0 : MockCollectionL := MockCollectionL.new usersSchemaC

theorem usersC0_eval :
    usersC0 =
      { btree := ⟨.mk [] [] true, 64, cmpString, 0⟩
        indexManager := ⟨[("email_idx",
          { btree := ⟨.mk [] [] true, 32, cmpValue, 0⟩
            config := { name := "email_idx", field := "email", unique := true }
            fieldName := "email"
            uniqueMap := some [] })]⟩
        schema := [("name", "string"), ("email", "string")]
        hiddenFields := [] } := by
  simp [usersC0, MockCollectionL.new, usersSchemaC, toSimpleSchemaRuntime,
    extractHiddenFields, extractIndexConfigs, MockCollectionL.createIndex,
    IndexManager.createIndex, Index.new, BTree.new, jsMapHas, jsMapSet,
    toArray_mk]

def aliceFields : List (String × Value) :=
  [("name", .str "Alice"), ("email", .str "a@x")]

def usersStep1 := usersC0.add "aaa001" aliceFields

theorem usersStep1_eval :
    usersStep1 =
      (.ok ⟨"aaa001", aliceFields⟩,
       { btree := ⟨.mk [("aaa001", ⟨"aaa001", aliceFields⟩)] [] true, 64, cmpString, 1⟩
         indexManager := ⟨[("email_idx",
           { btree := ⟨.mk [(.str "a@x", "aaa001")] [] true, 32, cmpValue, 1⟩
             config := { name := "email_idx", field := "email", unique := true }
             fieldName := "email"
             uniqueMap := some [(.str "a@x", "aaa001")] })]⟩
         schema := [("name", "string"), ("email", "string")]
         hiddenFields := [] }) := by
  rw [usersStep1, usersC0_eval]
  simp [MockCollectionL.add, MockRecordL.new, validateRecord, isValidType,
    List.lookup, aliceFields, IndexManager.addToIndexes, addToIndexesGo,
    Index.add, viewGet, jsMapHas, jsMapSet, insert_mk, leafInsertEntry,
    MockRecordL.view, MockCollectionL.filterHidden]

def usersC1 := usersStep1.2

def eveFields : List (String × Value) :=
  [("name", .str "Eve"), ("email", .str "a@x")]

def usersStep2 := usersC1.add "eee002" eveFields

theorem usersStep2_eval :
    usersStep2 =
      (.error (.uniqueViolation "email_idx" (.str "a@x")),
       { btree := ⟨.mk [("aaa001", ⟨"aaa001", aliceFields⟩)] [] true, 64, cmpString, 1⟩
         indexManager := ⟨[("email_idx",
           { btree := ⟨.mk [] [] true, 32, cmpValue, 0⟩
             config := { name := "email_idx", field := "email", unique := true }
             fieldName := "email"
             uniqueMap := some [] })]⟩
         schema := [("name", "string"), ("email", "string")]
         hiddenFields := [] }) := by
  rw [usersStep2, usersC1, usersStep1_eval]
  simp [MockCollectionL.add, MockRecordL.new, validateRecord, isValidType,
    List.lookup, eveFields, IndexManager.addToIndexes, addToIndexesGo,
    Index.add, Index.remove, viewGet, jsMapHas, jsMapSet, jsMapDelete,
    delete_mk, scanIdx, MockRecordL.view, cmpValue_str_eqc]

def usersC2 := usersStep2.2

def carolFields : List (String × Value) :=
  [("name", .str "Carol"), ("email", .str "a@x")]

def usersStep3 := usersC2.add "ccc003" carolFields

theorem usersStep3_eval :
    usersStep3 =
      (.ok ⟨"ccc003", carolFields⟩,
       { btree := ⟨.mk [("aaa001", ⟨"aaa001", aliceFields⟩),
                       ("ccc003", ⟨"ccc003", carolFields⟩)] [] true, 64, cmpString, 2⟩
         indexManager := ⟨[("email_idx",
           { btree := ⟨.mk [(.str "a@x", "ccc003")] [] true, 32, cmpValue, 1⟩
             config := { name := "email_idx", field := "email", unique := true }
             fieldName := "email"
             uniqueMap := some [(.str "a@x", "ccc003")] })]⟩
         schema := [("name", "string"), ("email", "string")]
         hiddenFields := [] }) := by
  rw [usersStep3, usersC2, usersStep2_eval]
  simp [MockCollectionL.add, MockRecordL.new, validateRecord, isValidType,
    List.lookup, carolFields, aliceFields, IndexManager.addToIndexes, addToIndexesGo,
    Index.add, viewGet, jsMapHas, jsMapSet, insert_mk, leafInsertEntry,
    scanIdx, MockRecordL.view, MockCollectionL.filterHidden,
    cmpString_gtc "ccc003" "aaa001" (by decide) (by decide),
    cmpValue_str_eqc]

def agesSchemaC : List (String × FieldDefinitionL) :=
  [("name", { ftype := "string" }), ("age", { ftype := "number" })]

def agesC0 : MockCollectionL := MockCollectionL.new agesSchemaC

theorem agesC0_eval :
    agesC0 =
      { btree := ⟨.mk [] [] true, 64, cmpString, 0⟩
        indexManager := ⟨[]⟩
        schema := [("name", "string"), ("age", "number")]
        hiddenFields := [] } := by
  simp [agesC0, MockCollectionL.new, agesSchemaC, toSimpleSchemaRuntime,
    extractHiddenFields, extractIndexConfigs, BTree.new]

def agesStep1 := agesC0.add "aaa001" [("name", .str "A"), ("age", .num 28)]

def agesStep2 := agesStep1.2.add "bbb002" [("name", .str "B"), ("age", .num 28)]

theorem agesStep2_eval :
    agesStep2 =
      (.ok ⟨"bbb002", [("name", .str "B"), ("age", .num 28)]⟩,
       { btree := ⟨.mk
           [("aaa001", ⟨"aaa001", [("name", .str "A"), ("age", .num 28)]⟩),
            ("bbb002", ⟨"bbb002", [("name", .str "B"), ("age", .num 28)]⟩)] [] true,
           64, cmpString, 2⟩
         indexManager := ⟨[]⟩
         schema := [("name", "string"), ("age", "number")]
         hiddenFields := [] }) := by
  rw [agesStep2, agesStep1, agesC0_eval]
  simp [MockCollectionL.add, MockRecordL.new, validateRecord, isValidType,
    List.lookup, IndexManager.addToIndexes, addToIndexesGo,
    insert_mk, leafInsertEntry, scanIdx, MockRecordL.view,
    MockCollectionL.filterHidden,
    cmpString_gtc "bbb002" "aaa001" (by decide) (by decide)]

def ageDupCfg : IndexConfigL := ⟨"age_dup", "age", "btree", true⟩

def ageStep := agesStep2.2.createIndex ageDupCfg

theorem ageStep_eval :
    ageStep =
      (.ok (),
       { btree := ⟨.mk
           [("aaa001", ⟨"aaa001", [("name", .str "A"), ("age", .num 28)]⟩),
            ("bbb002", ⟨"bbb002", [("name", .str "B"), ("age", .num 28)]⟩)] [] true,
           64, cmpString, 2⟩
         indexManager := ⟨[("age_dup",
           { btree := ⟨.mk [(.num 28, "aaa001")] [] true, 32, cmpValue, 1⟩
             config := ageDupCfg
             fieldName := "age"
             uniqueMap := some [(.num 28, "aaa001")] })]⟩
         schema := [("name", "string"), ("age", "number")]
         hiddenFields := [] }) := by
  rw [ageStep, agesStep2_eval]
  simp [MockCollectionL.createIndex, IndexManager.createIndex, Index.new,
    ageDupCfg, jsMapHas, jsMapSet, BTree.new, toArray_mk, MockRecordL.view,
    Index.add, viewGet, List.lookup, insert_mk, leafInsertEntry, scanIdx]

def hiddenSchemaC : List (String × FieldDefinitionL) :=
  [("name", { ftype := "string" }),
   ("password", { ftype := "string", hidden := true })]

def hiddenC0 : MockCollectionL := MockCollectionL.new hiddenSchemaC

def hiddenStep := hiddenC0.add "aaa001"
  [("name", .str "A"), ("password", .str "secret")]

theorem hiddenStep_eval :
    hiddenStep =
      (.ok ⟨"aaa001", [("name", .str "A")]⟩,
       { btree := ⟨.mk
           [("aaa001", ⟨"aaa001", [("name", .str "A"), ("password", .str "secret")]⟩)] [] true,
           64, cmpString, 1⟩
         indexManager := ⟨[]⟩
         schema := [("name", "string"), ("password", "string")]
         hiddenFields := ["password"] }) := by
  rw [hiddenStep, hiddenC0]
  simp [MockCollectionL.new, hiddenSchemaC, toSimpleSchemaRuntime,
    extractHiddenFields, extractIndexConfigs, BTree.new,
    MockCollectionL.add, MockRecordL.new, validateRecord, isValidType,
    List.lookup, IndexManager.addToIndexes, addToIndexesGo,
    insert_mk, leafInsertEntry, MockRecordL.view,
    MockCollectionL.filterHidden, filterHiddenFieldsL]

def plainSchemaC : List (String × FieldDefinitionL) :=
  [("name", { ftype := "string" })]

def plainC0 : MockCollectionL := MockCollectionL.new plainSchemaC

def dupStep1 := plainC0.add "dupids" [("name", .str "A")]

def dupStep2 := dupStep1.2.add "dupids" [("name", .str "B")]

theorem dupStep2_eval :
    dupStep2 =
      (.ok ⟨"dupids", [("name", .str "B")]⟩,
       { btree := ⟨.mk
           [("dupids", ⟨"dupids", [("name", .str "A")]⟩),
            ("dupids", ⟨"dupids", [("name", .str "B")]⟩)] [] true,
           64, cmpString, 2⟩
         indexManager := ⟨[]⟩
         schema := [("name", "string")]
         hiddenFields := [] }) := by
  rw [dupStep2, dupStep1, plainC0]
  simp [MockCollectionL.new, plainSchemaC, toSimpleSchemaRuntime,
    extractHiddenFields, extractIndexConfigs, BTree.new,
    MockCollectionL.add, MockRecordL.new, validateRecord, isValidType,
    List.lookup, IndexManager.addToIndexes, addToIndexesGo,
    insert_mk, leafInsertEntry, scanIdx, MockRecordL.view,
    MockCollectionL.filterHidden, cmpString_eqc]

/-- The JS default comparator `(a, b) => a < b ? -1 : a > b ? 1 : 0`
specialised to integer keys, for the standalone B-tree scenario. -/
def cmpInt (a b : Int) : Int := if a < b then -1 else if b < a then 1 else 0

def c8t0 : BTree Int Nat := BTree.new 3 cmpInt

def c8t1 := c8t0.insert 1 10

def c8t2 := c8t1.insert 2 20

def c8t3 := c8t2.insert 3 30

theorem c8t2_eval : c8t2 = ⟨.mk [(1, 10), (2, 20)] [] true, 3, cmpInt, 2⟩ := by
  rw [c8t2, c8t1, c8t0]
  rw [show (BTree.new 3 cmpInt : BTree Int Nat) = ⟨.mk [] [] true, 3, cmpInt, 0⟩ from rfl]
  simp [insert_mk, leafInsertEntry, cmpInt]

theorem c8t3_eval :
    c8t3 = ⟨.mk [(2, 20)] [.mk [(1, 10)] [] true, .mk [(3, 30)] [] true] false,
      3, cmpInt, 3⟩ := by
  rw [c8t3, c8t2_eval]
  rw [BTree.insert]
  rw [if_pos (by simp)]
  simp only [entriesList_mk]
  rw [show (([(1, 10), (2, 20)] : List (Int × Nat)).drop ((3 - 1) / 2)) = [(2, 20)] from rfl]
  simp [splitLeft, splitRight, insertNonFull_descend, insertNonFull_leaf,
    childIndexFor, leafInsertEntry, cmpInt, BTreeNode.entriesList, BTreeNode.childrenList]

theorem c8t3_range : c8t3.range 1 1 = [(1, 10), (1, 10)] := by
  rw [c8t3_eval, BTree.range]
  simp [rangeGo, rangeStartIdx, scanIdx, cmpInt, BTreeNode.entriesList]

theorem c8t3_toArray : c8t3.toArray = [(1, 10), (2, 20), (3, 30)] := by
  rw [c8t3_eval, BTree.toArray]
  rw [travGo_some_child (by rfl) (by rfl)]
  rw [travGo_leaf]
  rw [travGo_none_child (by rfl) (by rfl)]
  rw [travGo_leaf]
  rfl

def dupData : List MockViewL :=
  [⟨"u1", [("name", .str "A"), ("email", .str "x")]⟩,
   ⟨"u2", [("name", .str "B"), ("email", .str "x")]⟩]

def dupInit := usersC0.init dupData

theorem dupInit_eval :
    dupInit =
      (.ok (),
       { btree := ⟨.mk
           [("u1", ⟨"u1", [("name", .str "A"), ("email", .str "x")]⟩),
            ("u2", ⟨"u2", [("name", .str "B"), ("email", .str "x")]⟩)] [] true,
           64, cmpString, 2⟩
         indexManager := ⟨[("email_idx",
           { btree := ⟨.mk [(.str "x", "u1")] [] true, 32, cmpValue, 1⟩
             config := { name := "email_idx", field := "email", unique := true }
             fieldName := "email"
             uniqueMap := some [(.str "x", "u1")] })]⟩
         schema := [("name", "string"), ("email", "string")]
         hiddenFields := [] }) := by
  rw [dupInit, usersC0_eval]
  simp [MockCollectionL.init, initGo, dupData, MockRecordL.new, validateRecord,
    isValidType, List.lookup, BTree.clear, IndexManager.clearAll, Index.clear,
    IndexManager.rebuildAll, Index.add, viewGet, jsMapHas, jsMapSet,
    insert_mk, leafInsertEntry, scanIdx,
    cmpString_gtc "u2" "u1" (by decide) (by decide)]

def badInit := usersC0.init [⟨"u3", [("name", .str "C"), ("email", .num 5)]⟩]

theorem badInit_eval : badInit.1 = .error (.validationError "email" "string") := by
  rw [badInit, usersC0_eval]
  simp [MockCollectionL.init, initGo, MockRecordL.new, validateRecord,
    isValidType, List.lookup, BTree.clear, IndexManager.clearAll, Index.clear]

/-! ### The claims -/

/-- C1: the specification claims a failed insert (unique violation) leaves
the entire collection state unchanged.  The code's rollback removes
entries from the indexes keyed by the rejected record's field values,
which deletes the entries belonging to the record that legitimately owns
those values: after Eve's rejected insert the primary map still holds
Alice, but the email index (B-tree and uniqueness map) has been emptied
of Alice's entry. -/
theorem failed_add_corrupts_unique_index :
    usersStep2.1 = .error (.uniqueViolation "email_idx" (.str "a@x")) ∧
    usersC1.btree.toArray = [("aaa001", ⟨"aaa001", aliceFields⟩)] ∧
    (usersC1.indexManager.indexes.lookup "email_idx").map
      (fun i => i.btree.toArray) = some [(.str "a@x", "aaa001")] ∧
    usersStep2.2.btree.toArray = usersC1.btree.toArray ∧
    (usersStep2.2.indexManager.indexes.lookup "email_idx").map
      (fun i => i.btree.toArray) = some [] ∧
    (usersStep2.2.indexManager.indexes.lookup "email_idx").map
      (fun i => i.uniqueMap) = some (some []) := by
  rw [usersStep2_eval, usersC1, usersStep1_eval]
  simp [List.lookup, toArray_mk]

/-- C2: the specification claims that for every unique index no two
records of the primary map ever share a non-null value on the indexed
field, across every operation sequence.  After the corrupted rollback of
C1, inserting Carol with Alice's email succeeds, and the primary map then
holds two distinct records with the same non-null email, under a unique
index. -/
theorem unique_invariant_broken_by_rollback :
    usersStep3.1 = .ok ⟨"ccc003", carolFields⟩ ∧
    (usersStep3.2.indexManager.indexes.lookup "email_idx").map
      (fun i => i.config.unique) = some true ∧
    usersStep3.2.btree.toArray.map (fun e => (e.1, e.2.record.lookup "email")) =
      [("aaa001", some (.str "a@x")), ("ccc003", some (.str "a@x"))] := by
  rw [usersStep3_eval]
  simp [List.lookup, toArray_mk, aliceFields, carolFields]

/-- C3: the specification describes an `update(id, partial)` operation of
the collection engine.  The `TypedMockCollection` interface the storage
manager casts to declares `update`, but the schema-aware `MockCollection`
class behind the cast implements no such method: calling it through the
cast fails at runtime. -/
theorem update_declared_not_implemented :
    "update" ∈ typedMockCollectionMethods ∧
    "update" ∉ mockCollectionMethods := by
  decide

/-- C4 (amended): `createIndex` rejects a duplicate index name and leaves
the state unchanged; under a fresh name it always returns success and the
index is retained - even when `unique` is requested and existing records
already collide on the field, in which case the build silently skips every
record after the first holder of each duplicated value (the ages scenario:
both records share age 28, the index is kept and holds only the first). -/
theorem createIndex_amended (c : MockCollectionL) (config : IndexConfigL) :
    (jsMapHas c.indexManager.indexes config.name = true →
       c.createIndex config = (.error (.indexExists config.name), c)) ∧
    (jsMapHas c.indexManager.indexes config.name = false →
       (c.createIndex config).1 = .ok () ∧
       (c.createIndex config).2.indexManager.hasIndex config.name = true) ∧
    ageStep.1 = .ok () ∧
    (ageStep.2.indexManager.indexes.lookup "age_dup").map
      (fun i => i.btree.toArray) = some [(.num 28, "aaa001")] := by
  refine ⟨?_, ?_, ?_, ?_⟩
  · intro h
    rw [MockCollectionL.createIndex, IndexManager.createIndex]
    rw [if_pos h]
  · intro h
    rw [MockCollectionL.createIndex, IndexManager.createIndex]
    rw [if_neg (by simp [h])]
    exact ⟨rfl, by simp [IndexManager.hasIndex, jsMapHas_set]⟩
  · rw [ageStep_eval]
  · rw [ageStep_eval]
    simp [List.lookup, toArray_mk]

/-- C4 witness: the amended theorem applied to the concrete ages
collection and the `age_dup` configuration. -/
theorem createIndex_amended_witness :
    (agesStep2.2.createIndex ageDupCfg).1 = .ok () ∧
    (agesStep2.2.createIndex ageDupCfg).2.indexManager.hasIndex ageDupCfg.name = true :=
  (createIndex_amended agesStep2.2 ageDupCfg).2.1
    (by rw [agesStep2_eval]; rfl)

/-- C4 counterexample: with two existing records sharing age 28, a unique
`createIndex` does not fail and the index is retained, holding only the
first record - against the claimed `UniqueViolation` failure with no
index retained. -/
theorem createIndex_unique_violation_retained :
    ageStep.1 = .ok () ∧
    ageStep.2.indexManager.hasIndex "age_dup" = true ∧
    (ageStep.2.indexManager.indexes.lookup "age_dup").map
      (fun i => i.btree.toArray) = some [(.num 28, "aaa001")] ∧
    ageStep.2.btree.size = 2 := by
  rw [ageStep_eval]
  refine ⟨rfl, rfl, ?_, rfl⟩
  simp [List.lookup, toArray_mk]

/-- C5: the specification claims commit pulls each collection's internal
projection, hidden fields included.  The `commitAll` of
`src/src/lib/storage.ts` pulls `collection.all()`, the visible projection:
the hidden `password` value is absent from the committed data.  The
`part_006` generation (`allInternal()`) retains it. -/
theorem commitAll_drops_hidden_fields :
    commitAllData [("users", hiddenStep.2)] =
      [⟨"users", [("name", "string"), ("password", "string")],
        [⟨"aaa001", [("name", .str "A")]⟩], []⟩] ∧
    commitAllDataLatest [("users", hiddenStep.2)] =
      [⟨"users", [("name", "string"), ("password", "string")],
        [⟨"aaa001", [("name", .str "A"), ("password", .str "secret")]⟩], []⟩] := by
  rw [hiddenStep_eval]
  constructor
  · simp [commitAllData, MockCollectionL.getSchema, MockCollectionL.all,
      toArray_mk, MockRecordL.view, MockCollectionL.filterHidden,
      filterHiddenFieldsL, commitIndexDirectory, MockCollectionL.listIndexes,
      IndexManager.listIndexes, MockCollectionL.getIndexStats,
      IndexManager.getAllStats]
  · simp [commitAllDataLatest, MockCollectionL.getSchema, MockCollectionL.allInternal,
      toArray_mk, MockRecordL.view, commitIndexDirectory, MockCollectionL.listIndexes,
      IndexManager.listIndexes, MockCollectionL.getIndexStats,
      IndexManager.getAllStats]

/-- C6: the specification claims an insert whose freshly generated id
already exists is rejected and retried, so each id keys at most one
record.  The code never checks: inserting twice under the same generated
id succeeds both times and the primary B-tree ends up with two records
under the key "dupids". -/
theorem generated_id_collision_not_rejected :
    dupStep2.1 = .ok ⟨"dupids", [("name", .str "B")]⟩ ∧
    dupStep2.2.btree.toArray =
      [("dupids", ⟨"dupids", [("name", .str "A")]⟩),
       ("dupids", ⟨"dupids", [("name", .str "B")]⟩)] ∧
    dupStep2.2.btree.size = 2 := by
  rw [dupStep2_eval]
  refine ⟨rfl, ?_, rfl⟩
  simp [toArray_mk]

/-- C7 (amended): on a file whose magic word is altered the deserializer
does produce the format error, but `DatabaseFile.load` catches every
failure, so initialization raises nothing and the container starts empty;
an absent file also starts empty; saving is a full rewrite of the file
whatever it previously held. -/
theorem load_swallows_magic_mismatch (buf : List Nat) (m : Nat)
    (h1 : readUInt32LE buf 0 = some m) (h2 : ¬ m = 0x4d4f4442) :
    dbFileDeserialize buf = .error .invalidMagic ∧
    dbFileLoad (some buf) = [] ∧
    dbFileLoad none = [] ∧
    ∀ (nb : List Nat) (old : Option (List Nat)), dbFileSave nb old = some nb := by
  have hdes : dbFileDeserialize buf = .error .invalidMagic := by
    rw [dbFileDeserialize]
    rw [h1]
    exact if_pos h2
  refine ⟨hdes, ?_, rfl, fun nb old => rfl⟩
  rw [dbFileLoad, hdes]

/-- C7 witness: the amended theorem applied to a four-byte zero buffer. -/
theorem load_swallows_magic_mismatch_witness :
    dbFileDeserialize [0, 0, 0, 0] = .error .invalidMagic ∧
    dbFileLoad (some [0, 0, 0, 0]) = [] := by
  have h := load_swallows_magic_mismatch [0, 0, 0, 0] 0 (by decide) (by decide)
  exact ⟨h.1, h.2.1⟩

/-- C7 counterexample: on a 64-byte zeroed file the parse fails with the
magic-number error, yet loading surfaces nothing and yields the empty
container - `initialize()` raises no `FormatError`. -/
theorem corrupted_file_load_raises_nothing :
    dbFileDeserialize (List.replicate 64 0) = .error .invalidMagic ∧
    dbFileLoad (some (List.replicate 64 0)) = [] := by
  have hdes : dbFileDeserialize (List.replicate 64 0) = .error .invalidMagic := by
    rw [dbFileDeserialize]
    rw [(by decide : readUInt32LE (List.replicate 64 0) 0 = some 0)]
    exact if_pos (by decide)
  refine ⟨hdes, ?_⟩
  rw [dbFileLoad, hdes]

/-- C8: the specification claims `range(min, max)` returns exactly the
entries with key in the closed interval, ascending.  On the order-3 tree
holding 1, 2, 3 (whereby the root has split), `range(1, 1)` returns the
entry for key 1 twice: on the break at key 2 the loop visits
`children[i]` a second time. -/
theorem rangeSearch_duplicates_on_break :
    c8t3.toArray = [(1, 10), (2, 20), (3, 30)] ∧
    c8t3.range 1 1 = [(1, 10), (1, 10)] :=
  ⟨c8t3_toArray, c8t3_range⟩

/-- C9 (amended): the timer fires a coalesced rewrite 100 ms after the
first modification of a cycle (there is no quiet-period reset: later
modifications inside the window are absorbed without re-arming), and
rewrite starts are serialized with at least `100 + d` between them, `d`
being the rewrite duration. -/
theorem autoCommit_amended (d m : Nat) (ms : List Nat) (l : List Nat)
    (h : ∀ u ∈ ms, u < m + 100 + d) :
    commitTimes d (m :: ms) = [m + 100] ∧
    List.Chain' (fun a b => a + 100 + d ≤ b) (commitTimes d l) :=
  ⟨commitTimes_burst d m ms h, commitTimes_serialized d l⟩

/-- C9 witness: the amended theorem at a concrete burst. -/
theorem autoCommit_amended_witness :
    commitTimes 0 (10 :: [60]) = [10 + 100] ∧
    List.Chain' (fun a b => a + 100 + 0 ≤ b) (commitTimes 0 [7, 300]) :=
  autoCommit_amended 0 10 [60] [7, 300] (by decide)

/-- C9 counterexample: two modifications at 0 ms and 50 ms.  The claimed
quiet-period debounce (reference model from the spec's words) rewrites at
150 ms; the code rewrites at 100 ms, 100 ms after the first modification,
ignoring the second. -/
theorem autoCommit_no_quiet_period :
    commitTimes 0 [0, 50] = [100] ∧ quietCommitTimes [0, 50] = [150] := by
  constructor
  · rw [commitTimes_burst 0 0 [50] (by decide)]
  · rw [quietCommitTimes]
    rw [quietGo]
    rw [if_pos (by decide)]
    rw [quietGo]

/-- C10 (amended): `init` validates every view against the schema and
raises on the first mismatch (so it is not raise-free); on schema-valid
data it succeeds and inserts every view into the primary map under its id,
duplicate unique values included; the index rebuild then skips a record
that violates a unique constraint, so the primary map holds records the
unique index has no entry for (the concrete run: both of "u1", "u2" carry
email "x"; both sit in the primary map, the email index holds only
"u1"). -/
theorem init_amended (c : MockCollectionL) (data : List MockViewL)
    (h3 : 3 ≤ c.btree.order)
    (hval : ∀ v ∈ data, validateRecord v.fields c.schema = .ok ()) :
    ((c.init data).1 = .ok () ∧
     (↑(c.init data).2.btree.toArray : Multiset (String × MockRecordL)) =
       ↑(data.map (fun v => (v.id, (⟨v.id, v.fields⟩ : MockRecordL))))) ∧
    dupInit.1 = .ok () ∧
    dupInit.2.btree.toArray.map (fun e => e.1) = ["u1", "u2"] ∧
    (dupInit.2.indexManager.indexes.lookup "email_idx").map
      (fun i => i.btree.toArray) = some [(.str "x", "u1")] ∧
    (dupInit.2.indexManager.indexes.lookup "email_idx").map
      (fun i => i.uniqueMap) = some (some [(.str "x", "u1")]) := by
  refine ⟨init_valid c data h3 hval, ?_, ?_, ?_, ?_⟩
  · rw [dupInit_eval]
  · rw [dupInit_eval]
    simp [toArray_mk]
  · rw [dupInit_eval]
    simp [List.lookup, toArray_mk]
  · rw [dupInit_eval]
    simp [List.lookup]

/-- C10 witness: the amended theorem applied to the users collection and
the duplicate-email data, which is schema-valid. -/
theorem init_amended_witness :
    (usersC0.init dupData).1 = .ok () ∧
    (↑(usersC0.init dupData).2.btree.toArray : Multiset (String × MockRecordL)) =
      ↑(dupData.map (fun v => (v.id, (⟨v.id, v.fields⟩ : MockRecordL)))) := by
  have h := init_amended usersC0 dupData
    (by rw [usersC0_eval]; decide)
    (by
      rw [usersC0_eval]
      intro v hv
      simp only [dupData, List.mem_cons, List.not_mem_nil, or_false] at hv
      rcases hv with h | h
      · rw [h]
        rfl
      · rw [h]
        rfl)
  exact h.1

/-- C10 counterexample: `init` over a single view whose email field holds
a number raises the validation error - it is not raise-free. -/
theorem init_raises_on_invalid_field :
    badInit.1 = .error (.validationError "email" "string") :=
  badInit_eval

end MockupStorage
